import Mathlib

/-!
# Metronome quorum scheduling: a shallow embedding of `metronome.go`

The Go package computes, for `numNodes` replicas and a quorum size, every
quorum (`combinations`), a reordering of the quorums that keeps consecutive
quorums far apart (`maximizeDistanceOrdering`), and the slot ordering of one
node together with its critical length (`getMyOrderingAndCriticalLen`,
`NewMetronome`).

Conventions of the embedding.

* A Go `int` / `NodeId` is an `Int`.  The arithmetic of `distance` wraps at 64
  bits (`wrapInt64`), the way Go integer arithmetic does on a 64-bit target.
* A Go slice is a `List`; slot indices and lengths are `Nat`.
* A run-time panic is an `Except.error`; the only loop whose termination is
  not structural (`for len(*tuples) > 0`) is run with fuel.
* `sort.Slice` is the Go standard library, not code of this package.  It is a
  parameter `sortSlice` of the functions that sort, constrained by
  `SortSliceSpec` (its documented contract: the result is a rearrangement of
  the slice in which no element is `less` than an earlier one).
  `insertionSortFunc` is one instance, the insertion sort the library runs on
  slices of at most 12 elements; `librarySortSlice` follows the library
  routine on longer slices through the branches modelled in `pdqsortFunc`.
* `math.Sqrt` and the conversions `float64(int)` / `int(float64)` are modelled
  exactly in integer arithmetic (`float64OfNat`, `sqrtFloat64`).
-/

namespace Raft

/-! ## Data model -/

/-- Go `type NodeId int`. -/
abbrev NodeId := Int

/-- Go `type QuorumTuple []NodeId`. -/
abbrev QuorumTuple := List NodeId

/-- The ways a call can abort. -/
inductive Err where
  /-- The explicit `panic` of `distance` on tuples of different lengths. -/
  | dimensionMismatch
  /-- An index expression out of range (`(*tuples)[0]` on an empty slice). -/
  | indexOutOfRange
  /-- The call `make([]NodeId, quorumSize)` with a negative length. -/
  | makeSliceLen
  /-- The embedding ran out of fuel: the Go loop would not have stopped. -/
  | outOfFuel
  deriving DecidableEq, Repr

deriving instance DecidableEq for Except

/-- Go `type Metronome struct`. -/
structure Metronome where
  Pid : NodeId
  MyOrdering : List Nat
  AllOrderings : List (List Nat)
  CriticalLen : Nat
  deriving DecidableEq, Repr

/-- Go `(*Metronome).getCriticalOrdering`: `m.MyOrdering[:m.CriticalLen]`.
The slice expression panics when `CriticalLen` exceeds the length. -/
def getCriticalOrdering (m : Metronome) : Except Err (List Nat) :=
  if m.CriticalLen ≤ m.MyOrdering.length then .ok (m.MyOrdering.take m.CriticalLen)
  else .error .indexOutOfRange

/-! ## Helpers of the Go file -/

/-- Go `contains`: linear scan for `pid`. -/
def contains : QuorumTuple → NodeId → Bool
  | [], _ => false
  | id :: q, pid => if id = pid then true else contains q pid

/-- Go `equal`: same length and the same identifier at every position. -/
def equal : QuorumTuple → QuorumTuple → Bool
  | [], [] => true
  | [], _ :: _ => false
  | _ :: _, [] => false
  | a :: t1, b :: t2 => if a ≠ b then false else equal t1 t2

/-- Go `intersect`: the members of `b`, in the order of `b`, that are keys of
the set built from `a`. -/
def intersect (a b : QuorumTuple) : QuorumTuple :=
  b.filter (fun v => a.elem v)

/-- Go `removeTuple`: drop the first element `equal` to `tuple`, if any. -/
def removeTuple : List QuorumTuple → QuorumTuple → List QuorumTuple
  | [], _ => []
  | t :: ts, tuple => if equal t tuple then ts else t :: removeTuple ts tuple

/-! ## `combinations` -/

/-- The values taken by `i` in `for i := start; i <= end; i++`. -/
def loopValues (start end_ : Int) : List Int :=
  (List.range (end_ + 1 - start).toNat).map (fun (j : Nat) => start + (j : Int))

/-- The closure `combine` of `combinations`.  `remaining` is
`quorumSize - depth` and `comb` holds the entries `comb[0 .. depth)` of the
Go buffer; the value is the list of tuples the call appends to `result`. -/
def combine (end_ : Int) : (remaining : Nat) → (start : Int) → (comb : List NodeId) →
    List QuorumTuple
  | 0, _, comb => [comb]
  | remaining + 1, start, comb =>
    (loopValues start end_).flatMap (fun i => combine end_ remaining (i + 1) (comb ++ [i]))

/-- Go `combinations(start, end, quorumSize)`. -/
def combinations (start end_ quorumSize : Int) : Except Err (List QuorumTuple) :=
  if quorumSize < 0 then .error .makeSliceLen
  else .ok (combine end_ quorumSize.toNat start [])

/-! ## `distance` -/

/-- Two's-complement wrap-around of a 64-bit Go `int`. -/
def wrapInt64 (x : Int) : Int :=
  (x + 2 ^ 63) % 2 ^ 64 - 2 ^ 63

/-- Number of binary digits of `n`, for `n < 2 ^ fuel`. -/
def bitLengthAux : Nat → Nat → Nat
  | 0, _ => 0
  | fuel + 1, n => if n = 0 then 0 else bitLengthAux fuel (n / 2) + 1

/-- Number of binary digits of a value below `2 ^ 64`. -/
def bitLength (n : Nat) : Nat := bitLengthAux 64 n

/-- Binary search for the integer square root: `r` is the part found so far,
the remaining candidate bits are those below `2 ^ bits`. -/
def isqrtAux (n : Nat) : Nat → Nat → Nat
  | 0, r => r
  | bits + 1, r =>
    if (r + 2 ^ bits) * (r + 2 ^ bits) ≤ n then isqrtAux n bits (r + 2 ^ bits)
    else isqrtAux n bits r

/-- Integer square root of a value below `4 ^ 128`. -/
def isqrt (n : Nat) : Nat := isqrtAux n 128 0

/-- Go `float64(n)` for `0 ≤ n < 2 ^ 64`: the value of the nearest double
(53 significant bits, ties to even).  The result is an integer. -/
def float64OfNat (n : Nat) : Nat :=
  let s := bitLength n - 53
  let q := n / 2 ^ s
  let r := n % 2 ^ s
  if 2 ^ s < 2 * r ∨ (2 * r = 2 ^ s ∧ q % 2 = 1) then (q + 1) * 2 ^ s else q * 2 ^ s

/-- Go `math.Sqrt(x)` for a double of integer value `0 ≤ x < 2 ^ 64`: the
correctly rounded square root, returned as `(m, t)` for the double
`m / 2 ^ t`, where `2 ^ 52 ≤ m ≤ 2 ^ 53` unless `x = 0`. -/
def sqrtFloat64 (x : Nat) : Nat × Nat :=
  let t := 52 - (bitLength x - 1) / 2
  let n := x * 4 ^ t
  let r := isqrt n
  (if r * r + r < n then r + 1 else r, t)

/-- Go `int(math.Sqrt(float64(s)))` for an `int` `s`.  For negative `s` the
square root is NaN, whose conversion yields the least `int64` on amd64. -/
def intSqrtFloat64 (s : Int) : Int :=
  if s < 0 then -(2 ^ 63)
  else
    let y := sqrtFloat64 (float64OfNat s.toNat)
    ((y.1 / 2 ^ y.2 : Nat) : Int)

/-- The accumulation loop of `distance`, started from `acc`. -/
def sumOfSquares : QuorumTuple → QuorumTuple → Int → Int
  | a :: t1, b :: t2, acc =>
    let diff := wrapInt64 (a - b)
    sumOfSquares t1 t2 (wrapInt64 (acc + wrapInt64 (diff * diff)))
  | _, _, acc => acc

/-- The value `distance` returns once the length check has passed. -/
def distanceValue (t1 t2 : QuorumTuple) : Int :=
  intSqrtFloat64 (sumOfSquares t1 t2 0)

/-- Go `distance`. -/
def distance (t1 t2 : QuorumTuple) : Except Err Int :=
  if t1.length ≠ t2.length then .error .dimensionMismatch
  else .ok (distanceValue t1 t2)

/-! ## `sort.Slice` -/

/-- The type of `sort.Slice` on a slice of tuples: the comparator first. -/
abbrev SortSlice := (QuorumTuple → QuorumTuple → Bool) → List QuorumTuple → List QuorumTuple

/-- The contract of `sort.Slice` used here: the result rearranges the slice,
and for a comparator `key a > key b` no element has a larger key than an
earlier one.  Nothing is assumed about elements of equal key. -/
structure SortSliceSpec (sortSlice : SortSlice) : Prop where
  perm : ∀ less xs, (sortSlice less xs).Perm xs
  sorted : ∀ (key : QuorumTuple → Int) xs,
    (sortSlice (fun a b => decide (key b < key a)) xs).Pairwise (fun a b => key b ≤ key a)

/-- Insertion of `x` at the end of the sorted slice `xs`, given reversed: `x`
moves towards the front while it is `less` than its left neighbour. -/
def insertBack (less : QuorumTuple → QuorumTuple → Bool) (x : QuorumTuple) :
    List QuorumTuple → List QuorumTuple
  | [] => [x]
  | y :: rev => if less x y then y :: insertBack less x rev else x :: y :: rev

/-- The insertion sort of the Go library (`insertionSortLessFunc`), which
`sort.Slice` runs on slices of at most 12 elements. -/
def insertionSortFunc : SortSlice := fun less xs =>
  (xs.foldl (fun rev x => insertBack less x rev) []).reverse

/-! ## `maximizeDistanceOrdering` and `createOrderedQuorums` -/

/-- The comparator of both `sort.Slice` calls: `a` goes before `b` when it is
farther from `last`. -/
def fartherFrom (last : QuorumTuple) (a b : QuorumTuple) : Bool :=
  decide (distanceValue last b < distanceValue last a)

/-- One `sort.Slice` call with the `distance` comparator.  A slice of fewer
than two elements is returned without a comparison; otherwise every element
is compared at least once, so `distance` panics if one of them has another
length than `last`. -/
def sortByDistance (sortSlice : SortSlice) (last : QuorumTuple) (xs : List QuorumTuple) :
    Except Err (List QuorumTuple) :=
  if 2 ≤ xs.length ∧ xs.any (fun t => decide (last.length ≠ t.length)) then
    .error .dimensionMismatch
  else .ok (sortSlice (fartherFrom last) xs)

/-- One iteration of `for len(*tuples) > 0`: returns the new `orderedTuples`
and the new `*tuples`. -/
def maximizeStep (sortSlice : SortSlice) (orderedTuples tuples : List QuorumTuple) :
    Except Err (List QuorumTuple × List QuorumTuple) :=
  match orderedTuples.getLast? with
  | none => .error .indexOutOfRange
  | some last =>
    let noRepeatTuples := tuples.filter (fun t => (intersect last t).length == 0)
    if 0 < noRepeatTuples.length then
      match sortByDistance sortSlice last noRepeatTuples with
      | .error e => .error e
      | .ok sorted =>
        match sorted.head? with
        | none => .error .indexOutOfRange
        | some nextTuple => .ok (orderedTuples ++ [nextTuple], removeTuple tuples nextTuple)
    else
      match sortByDistance sortSlice last tuples with
      | .error e => .error e
      | .ok sorted =>
        match sorted.head? with
        | none => .error .indexOutOfRange
        | some nextTuple => .ok (orderedTuples ++ [nextTuple], removeTuple sorted nextTuple)

/-- The loop `for len(*tuples) > 0`, at most `fuel` iterations. -/
def maximizeLoop (sortSlice : SortSlice) :
    Nat → List QuorumTuple → List QuorumTuple → Except Err (List QuorumTuple)
  | _, orderedTuples, [] => .ok orderedTuples
  | 0, _, _ :: _ => .error .outOfFuel
  | fuel + 1, orderedTuples, t :: ts =>
    match maximizeStep sortSlice orderedTuples (t :: ts) with
    | .error e => .error e
    | .ok (orderedTuples', tuples') => maximizeLoop sortSlice fuel orderedTuples' tuples'

/-- Go `maximizeDistanceOrdering`.  The fuel is the length of the input, one
more than the number of iterations the loop needs. -/
def maximizeDistanceOrdering (sortSlice : SortSlice) (tuples : List QuorumTuple) :
    Except Err (List QuorumTuple) :=
  match tuples with
  | [] => .error .indexOutOfRange
  | first :: rest => maximizeLoop sortSlice tuples.length [first] rest

/-- Go `createOrderedQuorums`. -/
def createOrderedQuorums (sortSlice : SortSlice) (numNodes quorumSize : Int) :
    Except Err (List QuorumTuple) :=
  match combinations 1 numNodes quorumSize with
  | .error e => .error e
  | .ok quorumCombos => maximizeDistanceOrdering sortSlice quorumCombos

/-! ## `getMyOrderingAndCriticalLen` and `NewMetronome` -/

/-- The loop state of `getMyOrderingAndCriticalLen`. -/
structure WalkState where
  ordering : List Nat
  rest : List Nat
  criticalLen : Nat
  deriving DecidableEq, Repr

/-- The body of `for entryId, q := range orderedQuorums`; `len` is
`len(orderedQuorums)`. -/
def walkStep (myPid : NodeId) (len : Nat) (st : WalkState) (entry : Nat × QuorumTuple) :
    WalkState :=
  let ordering := if contains entry.2 myPid then st.ordering ++ [entry.1] else st.ordering
  let rest := if contains entry.2 myPid then st.rest else st.rest ++ [entry.1]
  let criticalLen :=
    if st.criticalLen = 0 ∧ (entry.1 : Int) = (len : Int) - 1 then ordering.length
    else st.criticalLen
  { ordering := ordering, rest := rest, criticalLen := criticalLen }

/-- Go `getMyOrderingAndCriticalLen`. -/
def getMyOrderingAndCriticalLen (myPid : NodeId) (orderedQuorums : List QuorumTuple) :
    List Nat × Nat :=
  let st := orderedQuorums.enum.foldl (walkStep myPid orderedQuorums.length)
    { ordering := [], rest := [], criticalLen := 0 }
  (st.ordering ++ st.rest, st.criticalLen)

/-- Go `NewMetronome`. -/
def NewMetronome (sortSlice : SortSlice) (pid : NodeId) (numNodes quorumSize : Int) :
    Except Err Metronome :=
  match createOrderedQuorums sortSlice numNodes quorumSize with
  | .error e => .error e
  | .ok orderedQuorums =>
    let r := getMyOrderingAndCriticalLen pid orderedQuorums
    .ok { Pid := pid, MyOrdering := r.1, AllOrderings := [], CriticalLen := r.2 }

/-! ## Reference notions the code is compared with -/

/-- The `k`-element selections of `l`, each in the order of `l`, those that
keep the head of `l` first. -/
def selections : Nat → List Int → List (List Int)
  | 0, _ => [[]]
  | _ + 1, [] => []
  | k + 1, a :: l => (selections k l).map (fun s => a :: s) ++ selections (k + 1) l

/-- The slot indices of `qs`, ascending, whose quorum has `pid` as a member. -/
def memberSlots (pid : NodeId) (qs : List QuorumTuple) : List Nat :=
  (List.range qs.length).filter (fun i => decide (pid ∈ qs.getD i []))

/-- The slot indices of `qs`, ascending, whose quorum lacks `pid`. -/
def otherSlots (pid : NodeId) (qs : List QuorumTuple) : List Nat :=
  (List.range qs.length).filter (fun i => !decide (pid ∈ qs.getD i []))

/-- The exact sum of the squared differences, position by position. -/
def squaredDifferences (a b : QuorumTuple) : Int :=
  (List.zipWith (fun x y => (x - y) ^ 2) a b).sum

/-- The node identifiers `1, ..., numNodes`. -/
def nodeIds (numNodes : Int) : List NodeId := loopValues 1 numNodes

/-- The selection rule, first half: `next` shares no identifier with `last`
whenever some tuple of `pool` shares none. -/
def NoRepeatFirst (last next : QuorumTuple) (pool : List QuorumTuple) : Prop :=
  (∃ r ∈ pool, List.Disjoint last r) → List.Disjoint last next

/-- The selection rule, second half: `next` is at least as far from `last` as
every candidate, the candidates being the tuples of `pool` sharing no
identifier with `last` if there is one, and all of `pool` otherwise. -/
def FarthestCandidate (last next : QuorumTuple) (pool : List QuorumTuple) : Prop :=
  ((∃ r ∈ pool, List.Disjoint last r) →
      ∀ r ∈ pool, List.Disjoint last r → distanceValue last r ≤ distanceValue last next)
    ∧ ((¬ ∃ r ∈ pool, List.Disjoint last r) →
      ∀ r ∈ pool, distanceValue last r ≤ distanceValue last next)

/-- Every element of the list was selected by the rule from the elements
that follow its predecessor, starting after `last`. -/
def SelectedInTurn : QuorumTuple → List QuorumTuple → Prop
  | _, [] => True
  | last, next :: rest =>
    NoRepeatFirst last next (next :: rest) ∧ FarthestCandidate last next (next :: rest)
      ∧ SelectedInTurn next rest

instance decDisjoint (a b : QuorumTuple) : Decidable (List.Disjoint a b) :=
  decidable_of_iff (∀ x ∈ a, x ∉ b) (by simp [List.Disjoint])

instance decNoRepeatFirst (last next : QuorumTuple) (pool : List QuorumTuple) :
    Decidable (NoRepeatFirst last next pool) := by
  unfold NoRepeatFirst
  infer_instance

instance decFarthestCandidate (last next : QuorumTuple) (pool : List QuorumTuple) :
    Decidable (FarthestCandidate last next pool) := by
  unfold FarthestCandidate
  infer_instance

instance decSelectedInTurn : (last : QuorumTuple) → (l : List QuorumTuple) →
    Decidable (SelectedInTurn last l)
  | _, [] => isTrue trivial
  | last, next :: rest =>
    have := decSelectedInTurn next rest
    by unfold SelectedInTurn; infer_instance

/-! ## `sort.Slice` on more than 12 elements

The Go library (1.19 and later) sorts a slice of at most 12 elements by
insertion sort and a longer one by pattern-defeating quicksort.  The part of
that routine that runs on slices of fewer than 50 elements as long as every
partition is balanced is modelled below; a run that needs another branch
(heap sort, pattern breaking, the ninther pivot, shifting in the partial
insertion sort) yields `none`. -/

/-- The library's `data.Swap(i, j)`. -/
def swapAt (xs : List QuorumTuple) (i j : Nat) : List QuorumTuple :=
  (xs.set i (xs.getD j [])).set j (xs.getD i [])

/-- The library's `data.Less(i, j)`. -/
def lessAt (less : QuorumTuple → QuorumTuple → Bool) (xs : List QuorumTuple) (i j : Nat) :
    Bool :=
  less (xs.getD i []) (xs.getD j [])

/-- The library's `insertionSort_func(data, a, b)`: sorts `data[a:b]`. -/
def insertionSortRange (less : QuorumTuple → QuorumTuple → Bool) (xs : List QuorumTuple)
    (a b : Nat) : List QuorumTuple :=
  xs.take a ++ insertionSortFunc less ((xs.take b).drop a) ++ xs.drop b

/-- The library's `reverseRange_func(data, a, b)`. -/
def reverseRange (xs : List QuorumTuple) (a b : Nat) : List QuorumTuple :=
  xs.take a ++ ((xs.take b).drop a).reverse ++ xs.drop b

/-- The library's `sortedHint`. -/
inductive SortedHint where
  | unknownHint
  | increasingHint
  | decreasingHint
  deriving DecidableEq, Repr

/-- The library's `order2_func`: the two indices in order and the swap count. -/
def order2 (less : QuorumTuple → QuorumTuple → Bool) (xs : List QuorumTuple)
    (a b swaps : Nat) : Nat × Nat × Nat :=
  if lessAt less xs b a then (b, a, swaps + 1) else (a, b, swaps)

/-- The library's `median_func`: the index of the median of three and the swap
count. -/
def median (less : QuorumTuple → QuorumTuple → Bool) (xs : List QuorumTuple)
    (a b c swaps : Nat) : Nat × Nat :=
  let r1 := order2 less xs a b swaps
  let r2 := order2 less xs r1.2.1 c r1.2.2
  let r3 := order2 less xs r1.1 r2.1 r2.2.2
  (r3.2.1, r3.2.2)

/-- The library's `choosePivot_func(data, a, b)`; `none` from 50 elements on,
where the pivot is a ninther. -/
def choosePivot (less : QuorumTuple → QuorumTuple → Bool) (xs : List QuorumTuple)
    (a b : Nat) : Option (Nat × SortedHint) :=
  let l := b - a
  let i := a + l / 4 * 1
  let j := a + l / 4 * 2
  let k := a + l / 4 * 3
  if 8 ≤ l then
    if 50 ≤ l then none
    else
      let r := median less xs i j k 0
      if r.2 = 0 then some (r.1, .increasingHint)
      else if r.2 = 12 then some (r.1, .decreasingHint)
      else some (r.1, .unknownHint)
  else some (j, .increasingHint)

/-- The scan `for i < b && !data.Less(i, i-1) { i++ }`. -/
def skipSorted (less : QuorumTuple → QuorumTuple → Bool) (xs : List QuorumTuple) (b : Nat) :
    Nat → Nat → Nat
  | 0, i => i
  | fuel + 1, i =>
    if i < b ∧ lessAt less xs i (i - 1) = false then skipSorted less xs b fuel (i + 1) else i

/-- The library's `partialInsertionSort_func(data, a, b)` on fewer than 50
elements, where it moves nothing: whether `data[a:b]` is already sorted. -/
def partialInsertionSort (less : QuorumTuple → QuorumTuple → Bool) (xs : List QuorumTuple)
    (a b : Nat) : Option Bool :=
  if skipSorted less xs b (b - a) (a + 1) = b then some true
  else if b - a < 50 then some false
  else none

/-- The scan `for i <= j && data.Less(i, a) { i++ }` of `partition_func`. -/
def scanUp (less : QuorumTuple → QuorumTuple → Bool) (xs : List QuorumTuple) (a j : Nat) :
    Nat → Nat → Nat
  | 0, i => i
  | fuel + 1, i =>
    if i ≤ j ∧ lessAt less xs i a = true then scanUp less xs a j fuel (i + 1) else i

/-- The scan `for i <= j && !data.Less(j, a) { j-- }` of `partition_func`. -/
def scanDown (less : QuorumTuple → QuorumTuple → Bool) (xs : List QuorumTuple) (a i : Nat) :
    Nat → Nat → Nat
  | 0, j => j
  | fuel + 1, j =>
    if i ≤ j ∧ lessAt less xs j a = false then scanDown less xs a i fuel (j - 1) else j

/-- The closing loop of `partition_func`, from the indices `i`, `j`. -/
def partitionLoop (less : QuorumTuple → QuorumTuple → Bool) (a : Nat) :
    Nat → List QuorumTuple → Nat → Nat → List QuorumTuple × Nat
  | 0, xs, _, j => (xs, j)
  | fuel + 1, xs, i, j =>
    let i1 := scanUp less xs a j (j + 1 - i) i
    let j1 := scanDown less xs a i1 (j + 1 - i1) j
    if j1 < i1 then (xs, j1)
    else partitionLoop less a fuel (swapAt xs i1 j1) (i1 + 1) (j1 - 1)

/-- The library's `partition_func(data, a, b, pivot)`: the slice, the new
index of the pivot, and whether the slice was already partitioned. -/
def partition (less : QuorumTuple → QuorumTuple → Bool) (xs : List QuorumTuple)
    (a b pivot : Nat) : List QuorumTuple × Nat × Bool :=
  let xs1 := swapAt xs a pivot
  let i := scanUp less xs1 a (b - 1) (b - a) (a + 1)
  let j := scanDown less xs1 a i (b - a) (b - 1)
  if j < i then (swapAt xs1 j a, j, true)
  else
    let r := partitionLoop less a (b - a) (swapAt xs1 i j) (i + 1) (j - 1)
    (swapAt r.1 r.2 a, r.2, false)

/-- The scan `for i <= j && !data.Less(a, i) { i++ }` of `partitionEqual_func`. -/
def scanUpEqual (less : QuorumTuple → QuorumTuple → Bool) (xs : List QuorumTuple) (a j : Nat) :
    Nat → Nat → Nat
  | 0, i => i
  | fuel + 1, i =>
    if i ≤ j ∧ lessAt less xs a i = false then scanUpEqual less xs a j fuel (i + 1) else i

/-- The scan `for i <= j && data.Less(a, j) { j-- }` of `partitionEqual_func`. -/
def scanDownEqual (less : QuorumTuple → QuorumTuple → Bool) (xs : List QuorumTuple)
    (a i : Nat) : Nat → Nat → Nat
  | 0, j => j
  | fuel + 1, j =>
    if i ≤ j ∧ lessAt less xs a j = true then scanDownEqual less xs a i fuel (j - 1) else j

/-- The loop of `partitionEqual_func`, from the indices `i`, `j`. -/
def partitionEqualLoop (less : QuorumTuple → QuorumTuple → Bool) (a : Nat) :
    Nat → List QuorumTuple → Nat → Nat → List QuorumTuple × Nat
  | 0, xs, i, _ => (xs, i)
  | fuel + 1, xs, i, j =>
    let i1 := scanUpEqual less xs a j (j + 1 - i) i
    let j1 := scanDownEqual less xs a i1 (j + 1 - i1) j
    if j1 < i1 then (xs, i1)
    else partitionEqualLoop less a fuel (swapAt xs i1 j1) (i1 + 1) (j1 - 1)

/-- The library's `partitionEqual_func(data, a, b, pivot)`. -/
def partitionEqual (less : QuorumTuple → QuorumTuple → Bool) (xs : List QuorumTuple)
    (a b pivot : Nat) : List QuorumTuple × Nat :=
  partitionEqualLoop less a (b - a + 1) (swapAt xs a pivot) (a + 1) (b - 1)

/-- The library's `pdqsort_func(data, a, b, limit)`, with the loop variables
`wasBalanced` and `wasPartitioned` as arguments; `none` when the run reaches
a branch that is not modelled or the fuel is used up. -/
def pdqsortFunc (less : QuorumTuple → QuorumTuple → Bool) :
    Nat → List QuorumTuple → Nat → Nat → Nat → Bool → Bool → Option (List QuorumTuple)
  | 0, _, _, _, _, _, _ => none
  | fuel + 1, xs, a, b, limit, wasBalanced, wasPartitioned =>
    if b - a ≤ 12 then some (insertionSortRange less xs a b)
    else if limit = 0 then none
    else if wasBalanced = false then none
    else
      match choosePivot less xs a b with
      | none => none
      | some (pivot0, hint0) =>
        let xs1 := if hint0 = .decreasingHint then reverseRange xs a b else xs
        let pivot := if hint0 = .decreasingHint then (b - 1) - (pivot0 - a) else pivot0
        let hint := if hint0 = .decreasingHint then SortedHint.increasingHint else hint0
        let sorted :=
          if wasBalanced ∧ wasPartitioned ∧ hint = .increasingHint then
            partialInsertionSort less xs1 a b
          else some false
        match sorted with
        | none => none
        | some true => some xs1
        | some false =>
          if 0 < a ∧ lessAt less xs1 (a - 1) pivot = false then
            let r := partitionEqual less xs1 a b pivot
            pdqsortFunc less fuel r.1 r.2 b limit wasBalanced wasPartitioned
          else
            let r := partition less xs1 a b pivot
            let mid := r.2.1
            if mid - a < b - mid then
              match pdqsortFunc less fuel r.1 a mid limit true true with
              | none => none
              | some xs2 =>
                pdqsortFunc less fuel xs2 (mid + 1) b limit
                  (decide ((b - a) / 8 ≤ mid - a)) r.2.2
            else
              match pdqsortFunc less fuel r.1 (mid + 1) b limit true true with
              | none => none
              | some xs2 =>
                pdqsortFunc less fuel xs2 a mid limit (decide ((b - a) / 8 ≤ b - mid)) r.2.2

/-- The library's `sort.Slice` as far as modelled: `pdqsort_func` on the whole
slice with `limit = bits.Len(length)`. -/
def sliceSort (less : QuorumTuple → QuorumTuple → Bool) (xs : List QuorumTuple) :
    Option (List QuorumTuple) :=
  pdqsortFunc less (2 * xs.length + 2) xs 0 xs.length (bitLength xs.length) true true

/-- An instance of `sort.Slice` that is `sliceSort` wherever that is defined,
and the insertion sort elsewhere. -/
def librarySortSlice : SortSlice := fun less xs =>
  match sliceSort less xs with
  | some ys => ys
  | none => insertionSortFunc less xs

/-! ## The tie-break of a selection step -/

/-- The candidates of a selection step, in the order of the pool before the
step's sort: the tuples sharing no identifier with `last` if there is one,
the whole pool otherwise. -/
def stepCandidates (last : QuorumTuple) (pool : List QuorumTuple) : List QuorumTuple :=
  if 0 < (pool.filter (fun t => (intersect last t).length == 0)).length then
    pool.filter (fun t => (intersect last t).length == 0)
  else pool

/-- The tuple `m` is the first of `xs` among those of maximal key: every
earlier element has a smaller key and no later one a larger key. -/
def FirstMaximal (key : QuorumTuple → Int) (xs : List QuorumTuple) (m : QuorumTuple) : Prop :=
  ∃ l1 l2, xs = l1 ++ m :: l2 ∧ (∀ r ∈ l1, key r < key m) ∧ (∀ r ∈ l2, key r ≤ key m)

/-- The first element of maximal key, computed from the back of the list. -/
def firstMaximal (key : QuorumTuple → Int) : List QuorumTuple → Option QuorumTuple
  | [] => none
  | x :: xs =>
    match firstMaximal key xs with
    | none => some x
    | some m => if key m ≤ key x then some x else some m

/-! ## Lemmas on `combinations` -/

theorem loopValues_of_lt (start end_ : Int) (h : end_ < start) : loopValues start end_ = [] := by
  unfold loopValues
  have : (end_ + 1 - start).toNat = 0 := by omega
  simp [this]

theorem loopValues_of_le (start end_ : Int) (h : start ≤ end_) :
    loopValues start end_ = start :: loopValues (start + 1) end_ := by
  unfold loopValues
  have e : (end_ + 1 - start).toNat = (end_ + 1 - (start + 1)).toNat + 1 := by omega
  rw [e, List.range_succ_eq_map]
  simp only [List.map_cons, List.map_map]
  refine congrArg₂ _ (by simp) ?_
  apply List.map_congr_left
  intro j _
  simp only [Function.comp, Nat.succ_eq_add_one]
  push_cast
  ring

theorem mem_loopValues (start end_ x : Int) :
    x ∈ loopValues start end_ ↔ start ≤ x ∧ x ≤ end_ := by
  unfold loopValues
  simp only [List.mem_map, List.mem_range]
  constructor
  · rintro ⟨j, hj, rfl⟩
    omega
  · rintro ⟨h1, h2⟩
    exact ⟨(x - start).toNat, by omega, by omega⟩

theorem length_loopValues (start end_ : Int) :
    (loopValues start end_).length = (end_ + 1 - start).toNat := by
  simp [loopValues]

theorem sorted_loopValues (start end_ : Int) :
    (loopValues start end_).Pairwise (fun a b => a < b) := by
  unfold loopValues
  rw [List.pairwise_map]
  exact (List.pairwise_lt_range _).imp (fun h => by omega)

theorem nodup_loopValues (start end_ : Int) : (loopValues start end_).Nodup :=
  (sorted_loopValues start end_).imp (fun h => ne_of_lt h)

/-- The recursion of `combine` enumerates the selections of the loop values,
each appended to the entries already fixed. -/
theorem combine_eq_selections (end_ : Int) (remaining : Nat) :
    ∀ (start : Int) (comb : List NodeId),
      combine end_ remaining start comb
        = (selections remaining (loopValues start end_)).map (fun s => comb ++ s) := by
  induction remaining with
  | zero => intro start comb; simp [combine, selections]
  | succ k ih =>
    intro start comb
    simp only [combine]
    generalize hm : (end_ + 1 - start).toNat = m
    induction m generalizing start with
    | zero =>
      have : loopValues start end_ = [] := loopValues_of_lt _ _ (by omega)
      simp [this, selections]
    | succ m ihm =>
      have hle : start ≤ end_ := by omega
      rw [loopValues_of_le _ _ hle, List.flatMap_cons, ihm (start + 1) (by omega), ih]
      simp [selections, List.map_append, List.map_map, Function.comp]

theorem mem_selections (k : Nat) (l : List Int) (t : List Int) :
    t ∈ selections k l ↔ t.Sublist l ∧ t.length = k := by
  induction l generalizing k t with
  | nil =>
    cases k with
    | zero => simp [selections]
    | succ k =>
      simp only [selections, List.not_mem_nil, List.sublist_nil, false_iff, not_and]
      rintro rfl
      simp
  | cons a l ih =>
    cases k with
    | zero =>
      simp only [selections, List.mem_singleton, List.length_eq_zero]
      constructor
      · rintro rfl; simp
      · rintro ⟨_, h⟩; exact h
    | succ k =>
      simp only [selections, List.mem_append, List.mem_map, ih]
      constructor
      · rintro (⟨s, ⟨hs, hl⟩, rfl⟩ | ⟨hs, hl⟩)
        · exact ⟨hs.cons₂ a, by simp [hl]⟩
        · exact ⟨hs.cons a, hl⟩
      · rintro ⟨hs, hl⟩
        cases hs with
        | cons _ h => exact Or.inr ⟨h, hl⟩
        | cons₂ _ h =>
          rename_i s
          exact Or.inl ⟨s, ⟨h, by simpa using hl⟩, rfl⟩

theorem length_selections (k : Nat) (l : List Int) :
    (selections k l).length = l.length.choose k := by
  induction l generalizing k with
  | nil => cases k <;> simp [selections]
  | cons a l ih =>
    cases k with
    | zero => simp [selections]
    | succ k =>
      simp [selections, ih, Nat.choose_succ_succ]

theorem countP_selections_of_not_mem (p : Int) (k : Nat) (l : List Int) (hp : p ∉ l) :
    (selections k l).countP (fun t => decide (p ∈ t)) = 0 := by
  rw [List.countP_eq_zero]
  intro t ht
  have := ((mem_selections k l t).1 ht).1
  simp only [decide_eq_true_eq]
  exact fun h => hp (this.subset h)

/-- Among the `k + 1`-element selections of a duplicate-free list, those that
contain a given member number `C(length - 1, k)`. -/
theorem countP_selections_of_mem (p : Int) (k : Nat) (l : List Int) (hn : l.Nodup)
    (hp : p ∈ l) :
    (selections (k + 1) l).countP (fun t => decide (p ∈ t)) = (l.length - 1).choose k := by
  induction l generalizing k with
  | nil => simp at hp
  | cons a l ih =>
    have hn' : l.Nodup := (List.nodup_cons.1 hn).2
    have ha : a ∉ l := (List.nodup_cons.1 hn).1
    simp only [selections, List.countP_append, List.countP_map, List.length_cons,
      Nat.add_sub_cancel]
    by_cases hap : p = a
    · subst hap
      rw [countP_selections_of_not_mem p (k + 1) l ha]
      have : (selections k l).countP ((fun t => decide (p ∈ t)) ∘ fun s => p :: s)
          = (selections k l).length := by
        rw [List.countP_eq_length]
        intro s _
        simp
      rw [this, length_selections]
      rfl
    · have hpl : p ∈ l := by
        rcases List.mem_cons.1 hp with h | h
        · exact absurd h hap
        · exact h
      have hcongr : (selections k l).countP ((fun t => decide (p ∈ t)) ∘ fun s => a :: s)
          = (selections k l).countP (fun t => decide (p ∈ t)) := by
        apply List.countP_congr
        intro s _
        simp [hap]
      rw [hcongr, ih (k := k) hn' hpl]
      have hlen : l.length = (l.length - 1) + 1 := by
        have := List.length_pos_of_mem hpl
        omega
      cases k with
      | zero =>
        simp [selections]
      | succ k =>
        rw [ih (k := k) hn' hpl]
        conv_rhs => rw [hlen, Nat.choose_succ_succ]

theorem sublist_loopValues_iff (start end_ : Int) (t : List Int) :
    t.Sublist (loopValues start end_)
      ↔ t.Pairwise (fun a b => a < b) ∧ ∀ x ∈ t, start ≤ x ∧ x ≤ end_ := by
  constructor
  · intro h
    exact ⟨(sorted_loopValues start end_).sublist h,
      fun x hx => (mem_loopValues start end_ x).1 (h.subset hx)⟩
  · rintro ⟨hs, hr⟩
    have hnd : t.Nodup := hs.imp (fun h => ne_of_lt h)
    have hsub : t ⊆ loopValues start end_ :=
      fun x hx => (mem_loopValues start end_ x).2 (hr x hx)
    exact List.sublist_of_subperm_of_sorted (hnd.subperm hsub) hs (sorted_loopValues start end_)

theorem combinations_ok (start end_ quorumSize : Int) (hq : 0 ≤ quorumSize) :
    combinations start end_ quorumSize
      = .ok (selections quorumSize.toNat (loopValues start end_)) := by
  unfold combinations
  rw [if_neg (by omega), combine_eq_selections]
  simp

theorem mem_combinations (start end_ quorumSize : Int) (hq : 0 ≤ quorumSize) (t : QuorumTuple) :
    t ∈ selections quorumSize.toNat (loopValues start end_)
      ↔ (t.length : Int) = quorumSize ∧ t.Pairwise (fun a b => a < b)
          ∧ ∀ x ∈ t, start ≤ x ∧ x ≤ end_ := by
  rw [mem_selections, sublist_loopValues_iff]
  constructor
  · rintro ⟨⟨h1, h2⟩, h3⟩
    exact ⟨by omega, h1, h2⟩
  · rintro ⟨h1, h2, h3⟩
    exact ⟨⟨h2, h3⟩, by omega⟩

theorem nodup_selections (k : Nat) (l : List Int) (hn : l.Nodup) : (selections k l).Nodup := by
  induction l generalizing k with
  | nil => cases k <;> simp [selections]
  | cons a l ih =>
    have hn' : l.Nodup := (List.nodup_cons.1 hn).2
    have ha : a ∉ l := (List.nodup_cons.1 hn).1
    cases k with
    | zero => simp [selections]
    | succ k =>
      simp only [selections]
      refine List.Nodup.append ?_ (ih (k + 1) hn') ?_
      · exact (ih k hn').map (fun s t h => by simpa using h)
      · intro t h1 h2
        obtain ⟨s, _, rfl⟩ := List.mem_map.1 h1
        exact ha (((mem_selections (k + 1) l _).1 h2).1.subset (List.mem_cons_self a s))

/-! ## Lemmas on the helpers of the sequencer -/

theorem equal_iff (a b : QuorumTuple) : equal a b = true ↔ a = b := by
  induction a generalizing b with
  | nil => cases b <;> simp [equal]
  | cons x a ih =>
    cases b with
    | nil => simp [equal]
    | cons y b =>
      by_cases h : x = y
      · simp [equal, h, ih]
      · simp [equal, h]

theorem contains_iff (q : QuorumTuple) (pid : NodeId) : contains q pid = true ↔ pid ∈ q := by
  induction q with
  | nil => simp [contains]
  | cons x q ih =>
    by_cases h : x = pid
    · simp [contains, h]
    · have h2 : ¬ pid = x := fun e => h e.symm
      simp [contains, h, h2, ih]

theorem perm_cons_removeTuple (l : List QuorumTuple) (t : QuorumTuple) (h : t ∈ l) :
    l.Perm (t :: removeTuple l t) := by
  induction l with
  | nil => simp at h
  | cons x l ih =>
    by_cases hx : x = t
    · have he : equal x t = true := (equal_iff x t).2 hx
      simp only [removeTuple, he, if_true]
      rw [hx]
    · have he : ¬ equal x t = true := fun e => hx ((equal_iff x t).1 e)
      have ht : t ∈ l := by
        rcases List.mem_cons.1 h with h1 | h1
        · exact absurd h1.symm hx
        · exact h1
      simp only [removeTuple, he, if_false]
      exact (List.Perm.cons x (ih ht)).trans (List.Perm.swap t x _)

theorem intersect_length_eq_zero_iff (a b : QuorumTuple) :
    ((intersect a b).length == 0) = true ↔ List.Disjoint a b := by
  unfold intersect
  simp only [beq_iff_eq, List.length_eq_zero, List.filter_eq_nil_iff, List.elem_eq_mem,
    decide_eq_true_eq]
  constructor
  · intro h x hxa hxb
    exact h x hxb hxa
  · intro h x hxb hxa
    exact h hxa hxb

/-! ## The library insertion sort meets the contract of `sort.Slice` -/

theorem perm_insertBack (less : QuorumTuple → QuorumTuple → Bool) (x : QuorumTuple)
    (rev : List QuorumTuple) : (insertBack less x rev).Perm (x :: rev) := by
  induction rev with
  | nil => simp [insertBack]
  | cons y rev ih =>
    simp only [insertBack]
    split
    · exact (List.Perm.cons y ih).trans (List.Perm.swap x y rev)
    · exact List.Perm.refl _

theorem perm_foldl_insertBack (less : QuorumTuple → QuorumTuple → Bool) (xs : List QuorumTuple) :
    ∀ rev, (xs.foldl (fun rev x => insertBack less x rev) rev).Perm (xs ++ rev) := by
  induction xs with
  | nil => intro rev; simp
  | cons x xs ih =>
    intro rev
    simp only [List.foldl_cons]
    refine (ih _).trans ?_
    refine (List.Perm.append_left xs (perm_insertBack less x rev)).trans ?_
    simp [List.perm_middle]

theorem sorted_insertBack (key : QuorumTuple → Int) (x : QuorumTuple) (rev : List QuorumTuple)
    (h : rev.Pairwise (fun a b => key a ≤ key b)) :
    (insertBack (fun a b => decide (key b < key a)) x rev).Pairwise
      (fun a b => key a ≤ key b) := by
  induction rev with
  | nil => simp [insertBack]
  | cons y rev ih =>
    have hy := List.pairwise_cons.1 h
    simp only [insertBack]
    split
    · rename_i hlt
      have hlt' : key y < key x := by simpa using hlt
      refine List.pairwise_cons.2 ⟨?_, ih hy.2⟩
      intro z hz
      rcases List.mem_cons.1 ((perm_insertBack _ x rev).subset hz) with rfl | hz'
      · exact le_of_lt hlt'
      · exact hy.1 z hz'
    · rename_i hlt
      have hle : key x ≤ key y := by simpa using hlt
      refine List.pairwise_cons.2 ⟨?_, h⟩
      intro z hz
      rcases List.mem_cons.1 hz with rfl | hz'
      · exact hle
      · exact le_trans hle (hy.1 z hz')

theorem sorted_foldl_insertBack (key : QuorumTuple → Int) (xs : List QuorumTuple) :
    ∀ rev, rev.Pairwise (fun a b => key a ≤ key b) →
      (xs.foldl (fun rev x => insertBack (fun a b => decide (key b < key a)) x rev)
        rev).Pairwise (fun a b => key a ≤ key b) := by
  induction xs with
  | nil => intro rev h; simpa using h
  | cons x xs ih =>
    intro rev h
    simp only [List.foldl_cons]
    exact ih _ (sorted_insertBack key x rev h)

theorem insertionSortFunc_spec : SortSliceSpec insertionSortFunc where
  perm := by
    intro less xs
    unfold insertionSortFunc
    refine (List.reverse_perm _).trans ?_
    simpa using perm_foldl_insertBack less xs []
  sorted := by
    intro key xs
    unfold insertionSortFunc
    rw [List.pairwise_reverse]
    exact sorted_foldl_insertBack key xs [] List.Pairwise.nil

/-! ## One iteration and the whole loop of `maximizeDistanceOrdering` -/

theorem sortByDistance_ok (sortSlice : SortSlice) (last : QuorumTuple) (xs : List QuorumTuple)
    (hlen : ∀ t ∈ xs, t.length = last.length) :
    sortByDistance sortSlice last xs = .ok (sortSlice (fartherFrom last) xs) := by
  unfold sortByDistance
  rw [if_neg]
  rintro ⟨_, h⟩
  obtain ⟨t, ht, hne⟩ := List.any_eq_true.1 h
  exact (of_decide_eq_true hne) (hlen t ht).symm

/-- The head of a slice sorted by decreasing distance from `last` is a member
of the slice at least as far from `last` as every member. -/
theorem head_sortSlice (sortSlice : SortSlice) (hs : SortSliceSpec sortSlice)
    (last : QuorumTuple) (xs : List QuorumTuple) (hne : xs ≠ []) :
    ∃ next, (sortSlice (fartherFrom last) xs).head? = some next ∧ next ∈ xs
      ∧ ∀ r ∈ xs, distanceValue last r ≤ distanceValue last next := by
  have hperm := hs.perm (fartherFrom last) xs
  have hsorted := hs.sorted (distanceValue last) xs
  change (sortSlice (fartherFrom last) xs).Pairwise _ at hsorted
  cases hsx : sortSlice (fartherFrom last) xs with
  | nil =>
    rw [hsx] at hperm
    exact absurd hperm.symm.eq_nil hne
  | cons next tl =>
    rw [hsx] at hperm hsorted
    refine ⟨next, rfl, hperm.subset (List.mem_cons_self _ _), ?_⟩
    intro r hr
    rcases List.mem_cons.1 (hperm.symm.subset hr) with rfl | h
    · exact le_refl _
    · exact (List.pairwise_cons.1 hsorted).1 r h

theorem maximizeStep_ok (sortSlice : SortSlice) (hs : SortSliceSpec sortSlice)
    (pre : List QuorumTuple) (last : QuorumTuple) (pool : List QuorumTuple) (hne : pool ≠ [])
    (hlen : ∀ t ∈ pool, t.length = last.length) :
    ∃ next pool', maximizeStep sortSlice (pre ++ [last]) pool
        = .ok (pre ++ [last] ++ [next], pool')
      ∧ next ∈ pool ∧ pool.Perm (next :: pool')
      ∧ NoRepeatFirst last next pool ∧ FarthestCandidate last next pool := by
  unfold maximizeStep
  rw [List.getLast?_concat]
  simp only
  have hfilter : ∀ r, r ∈ pool.filter (fun t => (intersect last t).length == 0)
      ↔ r ∈ pool ∧ List.Disjoint last r := by
    intro r
    rw [List.mem_filter, intersect_length_eq_zero_iff]
  by_cases hnr : 0 < (pool.filter (fun t => (intersect last t).length == 0)).length
  · rw [if_pos hnr, sortByDistance_ok sortSlice last _
      (fun t ht => hlen t ((hfilter t).1 ht).1)]
    obtain ⟨next, hhead, hmem, hmax⟩ :=
      head_sortSlice sortSlice hs last _ (List.ne_nil_of_length_pos hnr)
    have hnext := (hfilter next).1 hmem
    simp only [hhead]
    refine ⟨next, _, rfl, hnext.1, perm_cons_removeTuple pool next hnext.1, ?_, ?_, ?_⟩
    · exact fun _ => hnext.2
    · exact fun _ r hr hd => hmax r ((hfilter r).2 ⟨hr, hd⟩)
    · intro hno
      exact absurd ⟨next, hnext.1, hnext.2⟩ hno
  · rw [if_neg hnr, sortByDistance_ok sortSlice last pool hlen]
    obtain ⟨next, hhead, hmem, hmax⟩ := head_sortSlice sortSlice hs last pool hne
    have hperm := hs.perm (fartherFrom last) pool
    have hnone : ¬ ∃ r ∈ pool, List.Disjoint last r := by
      rintro ⟨r, hr, hd⟩
      exact hnr (List.length_pos_of_mem ((hfilter r).2 ⟨hr, hd⟩))
    simp only [hhead]
    refine ⟨next, _, rfl, hmem, ?_, ?_, ?_, ?_⟩
    · exact hperm.symm.trans (perm_cons_removeTuple _ next (hperm.symm.subset hmem))
    · exact fun h => absurd h hnone
    · exact fun h => absurd h hnone
    · exact fun _ => hmax

theorem noRepeatFirst_of_perm {last next : QuorumTuple} {p q : List QuorumTuple}
    (h : NoRepeatFirst last next p) (hpq : p.Perm q) : NoRepeatFirst last next q := by
  rintro ⟨r, hr, hd⟩
  exact h ⟨r, hpq.symm.subset hr, hd⟩

theorem farthestCandidate_of_perm {last next : QuorumTuple} {p q : List QuorumTuple}
    (h : FarthestCandidate last next p) (hpq : p.Perm q) : FarthestCandidate last next q := by
  constructor
  · rintro ⟨r, hr, hd⟩ r' hr' hd'
    exact h.1 ⟨r, hpq.symm.subset hr, hd⟩ r' (hpq.symm.subset hr') hd'
  · intro hno r hr
    exact h.2 (fun ⟨r', hr', hd'⟩ => hno ⟨r', hpq.subset hr', hd'⟩) r (hpq.symm.subset hr)

/-- With at least as much fuel as tuples in the pool, and every pool tuple as
long as the last ordered one, the loop returns the ordered tuples followed by
a rearrangement of the pool, each element of which was selected in turn. -/
theorem maximizeLoop_ok (sortSlice : SortSlice) (hs : SortSliceSpec sortSlice) :
    ∀ (fuel : Nat) (pool pre : List QuorumTuple) (last : QuorumTuple),
      pool.length ≤ fuel → (∀ t ∈ pool, t.length = last.length) →
      ∃ rest, maximizeLoop sortSlice fuel (pre ++ [last]) pool = .ok (pre ++ [last] ++ rest)
        ∧ rest.Perm pool ∧ SelectedInTurn last rest := by
  intro fuel
  induction fuel with
  | zero =>
    intro pool pre last hfuel _
    have : pool = [] := List.length_eq_zero.1 (by omega)
    subst this
    exact ⟨[], by simp [maximizeLoop], List.Perm.refl _, trivial⟩
  | succ fuel ih =>
    intro pool pre last hfuel hlen
    cases pool with
    | nil => exact ⟨[], by simp [maximizeLoop], List.Perm.refl _, trivial⟩
    | cons t ts =>
      obtain ⟨next, pool', hstep, hmem, hperm, hnr, hfar⟩ :=
        maximizeStep_ok sortSlice hs pre last (t :: ts) (by simp) hlen
      have hlen' : ∀ u ∈ pool', u.length = next.length := by
        intro u hu
        rw [hlen u (hperm.symm.subset (List.mem_cons_of_mem _ hu)), hlen next hmem]
      have hfuel' : pool'.length ≤ fuel := by
        have := hperm.length_eq
        simp only [List.length_cons] at this hfuel
        omega
      obtain ⟨rest, hloop, hrest, hsel⟩ := ih pool' (pre ++ [last]) next hfuel' hlen'
      have hp : (t :: ts).Perm (next :: rest) := hperm.trans (List.Perm.cons next hrest.symm)
      refine ⟨next :: rest, ?_, hp.symm, noRepeatFirst_of_perm hnr hp, farthestCandidate_of_perm hfar hp, hsel⟩
      simp only [maximizeLoop, hstep, hloop]
      simp

/-- The run of `maximizeDistanceOrdering` on a non-empty list of tuples of one
length. -/
theorem maximizeDistanceOrdering_ok (sortSlice : SortSlice) (hs : SortSliceSpec sortSlice)
    (first : QuorumTuple) (pool : List QuorumTuple)
    (hlen : ∀ t ∈ pool, t.length = first.length) :
    ∃ rest, maximizeDistanceOrdering sortSlice (first :: pool) = .ok (first :: rest)
      ∧ rest.Perm pool ∧ SelectedInTurn first rest := by
  obtain ⟨rest, h1, h2, h3⟩ :=
    maximizeLoop_ok sortSlice hs (first :: pool).length pool [] first (by simp) hlen
  exact ⟨rest, by simpa [maximizeDistanceOrdering] using h1, h2, h3⟩

theorem selectedInTurn_getElem (l : List QuorumTuple) :
    ∀ (a : QuorumTuple) (i : Nat) (x y : QuorumTuple), SelectedInTurn a l →
      (a :: l)[i]? = some x → (a :: l)[i + 1]? = some y →
      NoRepeatFirst x y ((a :: l).drop (i + 1))
        ∧ FarthestCandidate x y ((a :: l).drop (i + 1)) := by
  induction l with
  | nil =>
    intro a i x y _ _ hy
    simp at hy
  | cons b l ih =>
    intro a i x y hsel hx hy
    cases i with
    | zero =>
      simp only [List.getElem?_cons_zero, Option.some.injEq] at hx
      simp only [zero_add, List.getElem?_cons_succ, List.getElem?_cons_zero,
        Option.some.injEq] at hy
      subst hx hy
      exact ⟨hsel.1, hsel.2.1⟩
    | succ i =>
      simp only [List.getElem?_cons_succ] at hx hy
      simpa using ih b i x y hsel.2.2 hx (by simpa using hy)

theorem mem_drop_iff (l : List QuorumTuple) (n : Nat) (r : QuorumTuple) :
    r ∈ l.drop n ↔ ∃ j, n ≤ j ∧ l[j]? = some r := by
  rw [List.mem_iff_getElem?]
  constructor
  · rintro ⟨k, hk⟩
    rw [List.getElem?_drop] at hk
    exact ⟨n + k, by omega, hk⟩
  · rintro ⟨j, hj, hr⟩
    refine ⟨j - n, ?_⟩
    rw [List.getElem?_drop]
    have : n + (j - n) = j := by omega
    rw [this]
    exact hr

theorem distance_ok (a b : QuorumTuple) (h : a.length = b.length) :
    distance a b = .ok (distanceValue a b) := by
  unfold distance
  rw [if_neg (by simpa using h)]

/-- The run of `maximizeDistanceOrdering` on a non-empty list of tuples of one
length, in terms of the input list. -/
theorem maximizeDistanceOrdering_of_input (sortSlice : SortSlice)
    (hs : SortSliceSpec sortSlice) (input : List QuorumTuple) (hne : input ≠ [])
    (hlen : ∀ t ∈ input, ∀ u ∈ input, t.length = u.length) :
    ∃ first rest, maximizeDistanceOrdering sortSlice input = .ok (first :: rest)
      ∧ input.head? = some first ∧ (first :: rest).Perm input
      ∧ SelectedInTurn first rest := by
  cases input with
  | nil => exact absurd rfl hne
  | cons first pool =>
    obtain ⟨rest, h1, h2, h3⟩ := maximizeDistanceOrdering_ok sortSlice hs first pool
      (fun t ht => hlen t (List.mem_cons_of_mem _ ht) first (List.mem_cons_self _ _))
    exact ⟨first, rest, h1, rfl, List.Perm.cons first h2, h3⟩

/-- The run of `createOrderedQuorums` for `1 ≤ quorumSize ≤ numNodes`. -/
theorem createOrderedQuorums_ok (sortSlice : SortSlice) (hs : SortSliceSpec sortSlice)
    (numNodes quorumSize : Int) (hq : 1 ≤ quorumSize) (hqn : quorumSize ≤ numNodes) :
    ∃ first rest, createOrderedQuorums sortSlice numNodes quorumSize = .ok (first :: rest)
      ∧ (selections quorumSize.toNat (loopValues 1 numNodes)).head? = some first
      ∧ (first :: rest).Perm (selections quorumSize.toNat (loopValues 1 numNodes))
      ∧ SelectedInTurn first rest := by
  unfold createOrderedQuorums
  rw [combinations_ok 1 numNodes quorumSize (by omega)]
  simp only
  apply maximizeDistanceOrdering_of_input sortSlice hs
  · intro h
    have hl := length_selections quorumSize.toNat (loopValues 1 numNodes)
    rw [h, length_loopValues, List.length_nil] at hl
    have hpos : 0 < (numNodes + 1 - 1).toNat.choose quorumSize.toNat :=
      Nat.choose_pos (by omega)
    omega
  · intro t ht u hu
    have h1 := ((mem_selections _ _ t).1 ht).2
    have h2 := ((mem_selections _ _ u).1 hu).2
    omega

set_option maxRecDepth 100000 in
/-- Among the rearrangements of the three tuples after the seed, only one has
every element selected in turn. -/
theorem example_order_unique :
    ∀ r ∈ ([[4, 5, 6], [7, 8, 9], [10, 11, 12]] : List QuorumTuple).permutations',
      r = [[10, 11, 12], [4, 5, 6], [7, 8, 9]] ∨ ¬ SelectedInTurn [1, 2, 3] r := by
  decide

/-- The example of the test file, for every sort within the contract. -/
theorem example_order (sortSlice : SortSlice) (hs : SortSliceSpec sortSlice) :
    maximizeDistanceOrdering sortSlice [[1, 2, 3], [4, 5, 6], [7, 8, 9], [10, 11, 12]]
      = .ok [[1, 2, 3], [10, 11, 12], [4, 5, 6], [7, 8, 9]] := by
  obtain ⟨first, rest, h1, h2, h3, h4⟩ := maximizeDistanceOrdering_of_input sortSlice hs
    [[1, 2, 3], [4, 5, 6], [7, 8, 9], [10, 11, 12]] (by simp) (by decide)
  rw [h1]
  simp only [List.head?_cons, Option.some.injEq] at h2
  subst h2
  have h5 := (List.perm_cons _).1 h3
  rcases example_order_unique rest (List.mem_permutations'.2 h5) with h | h
  · rw [h]
  · exact absurd h4 h

/-! ## The walk of `getMyOrderingAndCriticalLen` -/

theorem getD_append_singleton_of_lt (qs : List QuorumTuple) (q : QuorumTuple) (i : Nat)
    (h : i < qs.length) : (qs ++ [q]).getD i [] = qs.getD i [] := by
  simp [List.getD_eq_getElem?_getD, List.getElem?_append_left h]

theorem getD_append_singleton_length (qs : List QuorumTuple) (q : QuorumTuple) :
    (qs ++ [q]).getD qs.length [] = q := by
  simp [List.getD_eq_getElem?_getD]

theorem memberSlots_snoc (pid : NodeId) (qs : List QuorumTuple) (q : QuorumTuple) :
    memberSlots pid (qs ++ [q])
      = memberSlots pid qs ++ (if pid ∈ q then [qs.length] else []) := by
  unfold memberSlots
  rw [List.length_append, List.length_singleton, List.range_succ, List.filter_append]
  congr 1
  · apply List.filter_congr
    intro i hi
    rw [getD_append_singleton_of_lt qs q i (List.mem_range.1 hi)]
  · by_cases h : pid ∈ q <;> simp [List.filter_cons, getD_append_singleton_length, h]

theorem otherSlots_snoc (pid : NodeId) (qs : List QuorumTuple) (q : QuorumTuple) :
    otherSlots pid (qs ++ [q])
      = otherSlots pid qs ++ (if pid ∈ q then [] else [qs.length]) := by
  unfold otherSlots
  rw [List.length_append, List.length_singleton, List.range_succ, List.filter_append]
  congr 1
  · apply List.filter_congr
    intro i hi
    rw [getD_append_singleton_of_lt qs q i (List.mem_range.1 hi)]
  · by_cases h : pid ∈ q <;> simp [List.filter_cons, getD_append_singleton_length, h]

theorem foldl_enum_snoc {β : Type} (f : β → Nat × QuorumTuple → β) (init : β)
    (qs : List QuorumTuple) (q : QuorumTuple) :
    (qs ++ [q]).enum.foldl f init = f (qs.enum.foldl f init) (qs.length, q) := by
  rw [List.enum_append, List.foldl_append]
  simp [List.enumFrom]

/-- The state of the walk after a prefix `qs` of a sequence of `len` quorums. -/
theorem walk_upto (pid : NodeId) (len : Nat) (qs : List QuorumTuple) :
    qs.length ≤ len →
      qs.enum.foldl (walkStep pid len) { ordering := [], rest := [], criticalLen := 0 }
        = { ordering := memberSlots pid qs, rest := otherSlots pid qs,
            criticalLen := if qs.length = len ∧ 0 < len then (memberSlots pid qs).length
              else 0 } := by
  induction qs using List.reverseRecOn with
  | nil =>
    intro _
    have : ¬ (0 = len ∧ 0 < len) := by omega
    simp [memberSlots, otherSlots, this]
  | append_singleton qs q ih =>
    intro hlen
    rw [List.length_append, List.length_singleton] at hlen
    rw [foldl_enum_snoc, ih (by omega), memberSlots_snoc, otherSlots_snoc]
    have h1 : ¬ (qs.length = len ∧ 0 < len) := by omega
    simp only [walkStep, if_neg h1, contains_iff, List.length_append, List.length_singleton]
    by_cases hp : pid ∈ q
    · by_cases hl : qs.length + 1 = len
      · have h2 : (qs.length : Int) = (len : Int) - 1 := by omega
        have h3 : 0 < len := by omega
        simp [hp, hl, h2, h3]
      · have h2 : ¬ (qs.length : Int) = (len : Int) - 1 := by omega
        simp [hp, hl, h2]
    · by_cases hl : qs.length + 1 = len
      · have h2 : (qs.length : Int) = (len : Int) - 1 := by omega
        have h3 : 0 < len := by omega
        simp [hp, hl, h2, h3]
      · have h2 : ¬ (qs.length : Int) = (len : Int) - 1 := by omega
        simp [hp, hl, h2]

/-- What `getMyOrderingAndCriticalLen` returns. -/
theorem getMyOrderingAndCriticalLen_eq (pid : NodeId) (qs : List QuorumTuple) :
    getMyOrderingAndCriticalLen pid qs
      = (memberSlots pid qs ++ otherSlots pid qs, (memberSlots pid qs).length) := by
  unfold getMyOrderingAndCriticalLen
  rw [walk_upto pid qs.length qs (le_refl _)]
  cases qs with
  | nil => simp [memberSlots]
  | cons q qs => simp

theorem length_memberSlots (pid : NodeId) (qs : List QuorumTuple) :
    (memberSlots pid qs).length = qs.countP (fun q => decide (pid ∈ q)) := by
  induction qs using List.reverseRecOn with
  | nil => simp [memberSlots]
  | append_singleton qs q ih =>
    rw [memberSlots_snoc, List.length_append, ih, List.countP_append]
    by_cases hp : pid ∈ q <;> simp [hp]

theorem mem_memberSlots (pid : NodeId) (qs : List QuorumTuple) (i : Nat) :
    i ∈ memberSlots pid qs ↔ ∃ q, qs[i]? = some q ∧ pid ∈ q := by
  unfold memberSlots
  rw [List.mem_filter, List.mem_range]
  constructor
  · rintro ⟨hi, hm⟩
    refine ⟨qs[i], List.getElem?_eq_getElem hi, ?_⟩
    simpa [List.getD_eq_getElem?_getD, List.getElem?_eq_getElem hi] using hm
  · rintro ⟨q, hq, hm⟩
    have hi : i < qs.length := (List.getElem?_eq_some_iff.1 hq).1
    refine ⟨hi, ?_⟩
    simpa [List.getD_eq_getElem?_getD, hq] using hm

theorem mem_otherSlots (pid : NodeId) (qs : List QuorumTuple) (i : Nat) :
    i ∈ otherSlots pid qs ↔ ∃ q, qs[i]? = some q ∧ pid ∉ q := by
  unfold otherSlots
  rw [List.mem_filter, List.mem_range]
  constructor
  · rintro ⟨hi, hm⟩
    refine ⟨qs[i], List.getElem?_eq_getElem hi, ?_⟩
    simpa [List.getD_eq_getElem?_getD, List.getElem?_eq_getElem hi] using hm
  · rintro ⟨q, hq, hm⟩
    have hi : i < qs.length := (List.getElem?_eq_some_iff.1 hq).1
    refine ⟨hi, ?_⟩
    simpa [List.getD_eq_getElem?_getD, hq] using hm

theorem sorted_memberSlots (pid : NodeId) (qs : List QuorumTuple) :
    (memberSlots pid qs).Pairwise (fun i j => i < j) :=
  (List.pairwise_lt_range _).sublist (List.filter_sublist _)

theorem sorted_otherSlots (pid : NodeId) (qs : List QuorumTuple) :
    (otherSlots pid qs).Pairwise (fun i j => i < j) :=
  (List.pairwise_lt_range _).sublist (List.filter_sublist _)

theorem perm_slots (pid : NodeId) (qs : List QuorumTuple) :
    (memberSlots pid qs ++ otherSlots pid qs).Perm (List.range qs.length) := by
  unfold memberSlots otherSlots
  exact List.filter_append_perm _ _

/-- The members of a duplicate-free tuple drawn from `l` are counted exactly
once each when the elements of the duplicate-free `l` are tested for
membership. -/
theorem countP_mem_eq_length (l t : List Int) (hl : l.Nodup) (ht : t.Nodup)
    (hsub : ∀ x ∈ t, x ∈ l) : l.countP (fun p => decide (p ∈ t)) = t.length := by
  rw [List.countP_eq_length_filter]
  apply List.Perm.length_eq
  rw [List.perm_ext_iff_of_nodup (hl.filter _) ht]
  intro x
  simp only [List.mem_filter, decide_eq_true_eq]
  exact ⟨fun h => h.2, fun h => ⟨hsub x h, h⟩⟩

/-- What `NewMetronome` returns for `1 ≤ quorumSize ≤ numNodes`. -/
theorem NewMetronome_ok (sortSlice : SortSlice) (hs : SortSliceSpec sortSlice)
    (numNodes quorumSize : Int) (hq : 1 ≤ quorumSize) (hqn : quorumSize ≤ numNodes) :
    ∃ o, createOrderedQuorums sortSlice numNodes quorumSize = .ok o
      ∧ o.Perm (selections quorumSize.toNat (loopValues 1 numNodes))
      ∧ ∀ pid, NewMetronome sortSlice pid numNodes quorumSize
          = .ok { Pid := pid, MyOrdering := memberSlots pid o ++ otherSlots pid o,
                  AllOrderings := [], CriticalLen := (memberSlots pid o).length } := by
  obtain ⟨first, rest, h1, _, h3, _⟩ :=
    createOrderedQuorums_ok sortSlice hs numNodes quorumSize hq hqn
  refine ⟨_, h1, h3, ?_⟩
  intro pid
  unfold NewMetronome
  rw [h1]
  simp only [getMyOrderingAndCriticalLen_eq]

/-- Over a rearrangement of the enumeration, every node of `1..numNodes` is a
member of `C(numNodes - 1, quorumSize - 1)` quorums. -/
theorem length_memberSlots_eq_choose (numNodes quorumSize : Int) (hq : 1 ≤ quorumSize)
    (o : List QuorumTuple)
    (hperm : o.Perm (selections quorumSize.toNat (loopValues 1 numNodes)))
    (p : NodeId) (hp : p ∈ loopValues 1 numNodes) :
    (memberSlots p o).length = (numNodes - 1).toNat.choose (quorumSize - 1).toNat := by
  rw [length_memberSlots, hperm.countP_eq]
  have hk : quorumSize.toNat = (quorumSize - 1).toNat + 1 := by omega
  rw [hk, countP_selections_of_mem p _ _ (nodup_loopValues 1 numNodes) hp,
    length_loopValues]
  congr 1
  omega

/-! ## The arithmetic of `distance` -/

theorem wrapInt64_of_bounds (x : Int) (h1 : -(2 ^ 63) ≤ x) (h2 : x < 2 ^ 63) :
    wrapInt64 x = x := by
  unfold wrapInt64
  norm_num at h1 h2 ⊢
  omega

theorem bitLengthAux_le (fuel : Nat) : ∀ (n k : Nat), n < 2 ^ k → bitLengthAux fuel n ≤ k := by
  induction fuel with
  | zero => intro n k _; simp [bitLengthAux]
  | succ fuel ih =>
    intro n k h
    unfold bitLengthAux
    split
    · exact Nat.zero_le _
    · rename_i hn
      cases k with
      | zero =>
        simp at h
        exact absurd h hn
      | succ k =>
        have : n / 2 < 2 ^ k := by
          rw [Nat.div_lt_iff_lt_mul (by decide)]
          rw [pow_succ] at h
          exact h
        have := ih (n / 2) k this
        omega

theorem float64OfNat_of_lt (n : Nat) (h : n < 2 ^ 53) : float64OfNat n = n := by
  have hb : bitLength n - 53 = 0 := by
    have := bitLengthAux_le 64 n 53 h
    unfold bitLength
    omega
  unfold float64OfNat
  simp only [hb, pow_zero, Nat.div_one, Nat.mod_one, Nat.mul_one]
  simp

theorem isqrtAux_spec (n : Nat) : ∀ (bits r : Nat), r * r ≤ n →
    n < (r + 2 ^ bits) * (r + 2 ^ bits) →
    isqrtAux n bits r * isqrtAux n bits r ≤ n
      ∧ n < (isqrtAux n bits r + 1) * (isqrtAux n bits r + 1) := by
  intro bits
  induction bits with
  | zero => intro r h1 h2; simpa [isqrtAux] using ⟨h1, h2⟩
  | succ bits ih =>
    intro r h1 h2
    unfold isqrtAux
    split
    · rename_i hc
      apply ih _ hc
      have : r + 2 ^ bits + 2 ^ bits = r + 2 ^ (bits + 1) := by rw [pow_succ]; omega
      rw [this]
      exact h2
    · rename_i hc
      exact ih r h1 (Nat.lt_of_not_le hc)

theorem isqrt_eq_sqrt (n : Nat) (h : n < 2 ^ 256) : isqrt n = Nat.sqrt n := by
  unfold isqrt
  rw [Nat.eq_sqrt]
  apply isqrtAux_spec n 128 0 (Nat.zero_le _)
  calc n < 2 ^ 256 := h
    _ = (0 + 2 ^ 128) * (0 + 2 ^ 128) := by norm_num

/-- Rounding the square root of `n` to the nearest multiple of `2 ^ (-t)` and
truncating gives the integer square root, unless the rounding reaches the
next integer; the hypothesis excludes that. -/
theorem round_sqrt_div (n t : Nat)
    (h : Nat.sqrt n + 1 ≤ ((Nat.sqrt n + 1) * (Nat.sqrt n + 1) - n) * 2 ^ t) :
    (if Nat.sqrt (n * 4 ^ t) * Nat.sqrt (n * 4 ^ t) + Nat.sqrt (n * 4 ^ t) < n * 4 ^ t
      then Nat.sqrt (n * 4 ^ t) + 1 else Nat.sqrt (n * 4 ^ t)) / 2 ^ t = Nat.sqrt n := by
  have h4 : (4 : Nat) ^ t = 2 ^ t * 2 ^ t := by
    rw [← mul_pow]
    norm_num
  rw [h4]
  generalize hP : 2 ^ t = P at h ⊢
  have hPpos : 0 < P := by rw [← hP]; positivity
  generalize hs : Nat.sqrt n = s at h ⊢
  have hs1 : s * s ≤ n := by rw [← hs]; exact Nat.sqrt_le n
  have hs2 : n < (s + 1) * (s + 1) := by rw [← hs]; exact Nat.lt_succ_sqrt n
  obtain ⟨D, hD⟩ : ∃ D, n + D = (s + 1) * (s + 1) := ⟨(s + 1) * (s + 1) - n, by omega⟩
  have hDP : s + 1 ≤ D * P := by
    have : (s + 1) * (s + 1) - n = D := by omega
    rw [this] at h
    exact h
  generalize hr : Nat.sqrt (n * (P * P)) = r
  have hr1 : r * r ≤ n * (P * P) := by rw [← hr]; exact Nat.sqrt_le _
  have hr2 : n * (P * P) < (r + 1) * (r + 1) := by rw [← hr]; exact Nat.lt_succ_sqrt _
  have hlow : s * P ≤ r := by
    rw [← hr, Nat.le_sqrt]
    calc s * P * (s * P) = s * s * (P * P) := by ring
      _ ≤ n * (P * P) := Nat.mul_le_mul_right _ hs1
  have hhigh : r < (s + 1) * P := by
    by_contra hc
    have hc' : (s + 1) * P ≤ r := Nat.le_of_not_lt hc
    have : (s + 1) * P * ((s + 1) * P) ≤ r * r := Nat.mul_le_mul hc' hc'
    have h3 : n * (P * P) < (s + 1) * (s + 1) * (P * P) :=
      Nat.mul_lt_mul_of_pos_right hs2 (Nat.mul_pos hPpos hPpos)
    have h4 : (s + 1) * P * ((s + 1) * P) = (s + 1) * (s + 1) * (P * P) := by ring
    omega
  split
  · rename_i hlt
    apply Nat.div_eq_of_lt_le
    · omega
    · by_contra hc
      have he : r + 1 = (s + 1) * P := by
        have : (s + 1) * P ≤ r + 1 := Nat.le_of_not_lt hc
        omega
      have h5 : (r + 1) * (r + 1) = n * (P * P) + D * (P * P) := by
        rw [he]
        calc (s + 1) * P * ((s + 1) * P) = (s + 1) * (s + 1) * (P * P) := by ring
          _ = (n + D) * (P * P) := by rw [hD]
          _ = n * (P * P) + D * (P * P) := by ring
      have h6 : (s + 1) * P ≤ D * (P * P) := by
        calc (s + 1) * P ≤ D * P * P := Nat.mul_le_mul_right _ hDP
          _ = D * (P * P) := by ring
      have h7 : (r + 1) * (r + 1) = r * r + r + (r + 1) := by ring
      omega
  · exact Nat.div_eq_of_lt_le hlow hhigh

/-- Below `2 ^ 52 + 2 ^ 27` the floating-point route computes the integer
square root. -/
theorem intSqrtFloat64_eq_sqrt (n : Nat) (h : n < 4503599761588224) :
    intSqrtFloat64 (n : Int) = (Nat.sqrt n : Int) := by
  unfold intSqrtFloat64
  rw [if_neg (by omega)]
  simp only [Int.toNat_ofNat]
  rw [float64OfNat_of_lt n (by norm_num; omega)]
  unfold sqrtFloat64
  simp only
  have hb : bitLength n ≤ 53 := bitLengthAux_le 64 n 53 (by norm_num; omega)
  generalize ht : 52 - (bitLength n - 1) / 2 = t
  have ht26 : 26 ≤ t := by omega
  have ht52 : t ≤ 52 := by omega
  have hN : n * 4 ^ t < 2 ^ 256 := by
    have h1 : (4 : Nat) ^ t ≤ 4 ^ 52 := Nat.pow_le_pow_right (by decide) ht52
    calc n * 4 ^ t ≤ n * 4 ^ 52 := Nat.mul_le_mul_left _ h1
      _ < 2 ^ 53 * 4 ^ 52 := Nat.mul_lt_mul_of_pos_right (by norm_num; omega) (by positivity)
      _ ≤ 2 ^ 256 := by norm_num
  rw [isqrt_eq_sqrt _ hN]
  congr 1
  apply round_sqrt_div
  have hP : 2 ^ 26 ≤ 2 ^ t := Nat.pow_le_pow_right (by decide) ht26
  have hs1 : Nat.sqrt n * Nat.sqrt n ≤ n := Nat.sqrt_le n
  have hs2 : n < (Nat.sqrt n + 1) * (Nat.sqrt n + 1) := Nat.lt_succ_sqrt n
  have hsle : Nat.sqrt n ≤ 2 ^ 26 := by
    have : Nat.sqrt n < 2 ^ 26 + 1 := by
      rw [Nat.sqrt_lt]
      norm_num
      omega
    omega
  generalize Nat.sqrt n = s at hs1 hs2 hsle ⊢
  generalize 2 ^ t = P at hP ⊢
  rcases Nat.lt_or_eq_of_le hsle with hlt | heq
  · have h1 : 1 ≤ (s + 1) * (s + 1) - n := by omega
    calc s + 1 ≤ 2 ^ 26 := hlt
      _ ≤ P := hP
      _ = 1 * P := (Nat.one_mul P).symm
      _ ≤ ((s + 1) * (s + 1) - n) * P := Nat.mul_le_mul_right _ h1
  · subst heq
    have h2 : 2 ≤ (2 ^ 26 + 1) * (2 ^ 26 + 1) - n := by norm_num; omega
    calc 2 ^ 26 + 1 ≤ 2 * 2 ^ 26 := by norm_num
      _ ≤ 2 * P := Nat.mul_le_mul_left _ hP
      _ ≤ ((2 ^ 26 + 1) * (2 ^ 26 + 1) - n) * P := Nat.mul_le_mul_right _ h2

theorem squaredDifferences_nonneg (a b : QuorumTuple) : 0 ≤ squaredDifferences a b := by
  unfold squaredDifferences
  apply List.sum_nonneg
  intro x hx
  obtain ⟨i, _, rfl⟩ := List.mem_iff_getElem.1 hx
  simp only [List.getElem_zipWith]
  positivity

theorem squaredDifferences_cons (x y : Int) (a b : QuorumTuple) :
    squaredDifferences (x :: a) (y :: b) = (x - y) ^ 2 + squaredDifferences a b := by
  simp [squaredDifferences]

/-- While the exact running sum stays below `2 ^ 63`, the wrapping loop of
`distance` computes it. -/
theorem sumOfSquares_eq (a : QuorumTuple) : ∀ (b : QuorumTuple) (acc : Int), 0 ≤ acc →
    acc + squaredDifferences a b < 2 ^ 63 →
    sumOfSquares a b acc = acc + squaredDifferences a b := by
  induction a with
  | nil => intro b acc _ _; simp [sumOfSquares, squaredDifferences]
  | cons x a ih =>
    intro b acc hacc hlt
    cases b with
    | nil => simp [sumOfSquares, squaredDifferences]
    | cons y b =>
      rw [squaredDifferences_cons] at hlt ⊢
      have hrest := squaredDifferences_nonneg a b
      have hsq : 0 ≤ (x - y) ^ 2 := sq_nonneg _
      have hmul : (x - y) * (x - y) = (x - y) ^ 2 := by ring
      have hsq' : (x - y) ^ 2 < 2 ^ 63 := by linarith
      have habs : -(2 ^ 63) ≤ x - y ∧ x - y < 2 ^ 63 := by
        constructor <;> nlinarith
      simp only [sumOfSquares]
      rw [wrapInt64_of_bounds (x - y) habs.1 habs.2, hmul,
        wrapInt64_of_bounds ((x - y) ^ 2) (by linarith) hsq',
        wrapInt64_of_bounds (acc + (x - y) ^ 2) (by linarith) (by linarith),
        ih b (acc + (x - y) ^ 2) (by linarith) (by linarith)]
      ring

/-- On equal-length tuples whose squared differences sum to less than
`2 ^ 52 + 2 ^ 27`, `distance` is the integer square root of that sum. -/
theorem distance_eq_sqrt (a b : QuorumTuple) (hlen : a.length = b.length)
    (hsum : squaredDifferences a b < 4503599761588224) :
    distance a b = .ok ((Nat.sqrt (squaredDifferences a b).toNat : Nat) : Int) := by
  rw [distance_ok a b hlen]
  unfold distanceValue
  rw [sumOfSquares_eq a b 0 (le_refl _) (by norm_num; omega)]
  have hnn := squaredDifferences_nonneg a b
  have hcast : (0 : Int) + squaredDifferences a b = ((squaredDifferences a b).toNat : Int) := by
    omega
  rw [hcast, intSqrtFloat64_eq_sqrt _ (by omega)]

/-! ## Order of the enumeration -/

theorem pairwise_lex_selections (l : List Int) (hl : l.Pairwise (fun a b => a < b)) :
    ∀ k, (selections k l).Pairwise (List.Lex (fun a b => a < b)) := by
  induction l with
  | nil => intro k; cases k <;> simp [selections]
  | cons a l ih =>
    intro k
    have hl' := List.pairwise_cons.1 hl
    cases k with
    | zero => simp [selections]
    | succ k =>
      simp only [selections]
      rw [List.pairwise_append]
      refine ⟨?_, ih hl'.2 (k + 1), ?_⟩
      · rw [List.pairwise_map]
        exact (ih hl'.2 k).imp (fun h => List.Lex.cons h)
      · intro x hx y hy
        obtain ⟨s, _, rfl⟩ := List.mem_map.1 hx
        have hy' := (mem_selections (k + 1) l y).1 hy
        cases y with
        | nil => simp at hy'
        | cons b y =>
          exact List.Lex.rel (hl'.1 b (hy'.1.subset (List.mem_cons_self b y)))

theorem head?_selections (l : List Int) : ∀ k, k ≤ l.length →
    (selections k l).head? = some (l.take k) := by
  induction l with
  | nil =>
    intro k hk
    have : k = 0 := by simpa using hk
    subst this
    simp [selections]
  | cons a l ih =>
    intro k hk
    cases k with
    | zero => simp [selections]
    | succ k =>
      simp only [selections, List.head?_append, List.head?_map,
        ih k (by simpa using hk)]
      simp

theorem take_loopValues (numNodes quorumSize : Int) (hq : 0 ≤ quorumSize)
    (hqn : quorumSize ≤ numNodes) :
    (loopValues 1 numNodes).take quorumSize.toNat = loopValues 1 quorumSize := by
  unfold loopValues
  rw [← List.map_take, List.take_range]
  congr 2
  omega

/-! ## Majority quorums intersect -/

/-- Two duplicate-free lists drawn from a list with fewer elements than the
two together have a common element. -/
theorem not_disjoint_of_length (l a b : List Int) (ha : a.Nodup) (hb : b.Nodup)
    (hal : ∀ x ∈ a, x ∈ l) (hbl : ∀ x ∈ b, x ∈ l) (hlen : l.length < a.length + b.length) :
    ¬ List.Disjoint a b := by
  intro hd
  have hnd : (a ++ b).Nodup := List.Nodup.append ha hb hd
  have hsub : a ++ b ⊆ l := by
    intro x hx
    rcases List.mem_append.1 hx with h | h
    · exact hal x h
    · exact hbl x h
  have := (hnd.subperm hsub).length_le
  simp only [List.length_append] at this
  omega

/-- Any two quorums of the enumeration share an identifier when twice the
quorum size exceeds the number of nodes. -/
theorem selections_not_disjoint (numNodes quorumSize : Int) (hq : 1 ≤ quorumSize)
    (hmaj : numNodes < 2 * quorumSize) (a b : QuorumTuple)
    (ha : a ∈ selections quorumSize.toNat (loopValues 1 numNodes))
    (hb : b ∈ selections quorumSize.toNat (loopValues 1 numNodes)) :
    ¬ List.Disjoint a b := by
  have ha' := (mem_combinations 1 numNodes quorumSize (by omega) a).1 ha
  have hb' := (mem_combinations 1 numNodes quorumSize (by omega) b).1 hb
  apply not_disjoint_of_length (loopValues 1 numNodes) a b
    (ha'.2.1.imp (fun h => ne_of_lt h)) (hb'.2.1.imp (fun h => ne_of_lt h))
    (fun x hx => (mem_loopValues 1 numNodes x).2 (ha'.2.2 x hx))
    (fun x hx => (mem_loopValues 1 numNodes x).2 (hb'.2.2 x hx))
  rw [length_loopValues]
  have h1 := ha'.1
  have h2 := hb'.1
  omega

/-! ## Fuel and iterations -/

theorem maximizeLoop_nil (sortSlice : SortSlice) (fuel : Nat) (ordered : List QuorumTuple) :
    maximizeLoop sortSlice fuel ordered [] = .ok ordered := by
  cases fuel <;> simp [maximizeLoop]

/-- With less fuel than tuples in the pool the loop is still running when the
fuel is used up. -/
theorem maximizeLoop_outOfFuel (sortSlice : SortSlice) (hs : SortSliceSpec sortSlice) :
    ∀ (fuel : Nat) (pool pre : List QuorumTuple) (last : QuorumTuple),
      fuel < pool.length → (∀ t ∈ pool, t.length = last.length) →
      maximizeLoop sortSlice fuel (pre ++ [last]) pool = .error .outOfFuel := by
  intro fuel
  induction fuel with
  | zero =>
    intro pool pre last hfuel _
    cases pool with
    | nil => simp at hfuel
    | cons t ts => simp [maximizeLoop]
  | succ fuel ih =>
    intro pool pre last hfuel hlen
    cases pool with
    | nil => simp at hfuel
    | cons t ts =>
      obtain ⟨next, pool', hstep, hmem, hperm, _, _⟩ :=
        maximizeStep_ok sortSlice hs pre last (t :: ts) (by simp) hlen
      have hlen' : ∀ u ∈ pool', u.length = next.length := by
        intro u hu
        rw [hlen u (hperm.symm.subset (List.mem_cons_of_mem _ hu)), hlen next hmem]
      have hfuel' : fuel < pool'.length := by
        have := hperm.length_eq
        simp only [List.length_cons] at this hfuel
        omega
      have := ih pool' (pre ++ [last]) next hfuel' hlen'
      simp only [maximizeLoop, hstep, this]

theorem maximizeLoop_fuel_succ (sortSlice : SortSlice) :
    ∀ (fuel : Nat) (ordered pool o : List QuorumTuple),
      maximizeLoop sortSlice fuel ordered pool = .ok o →
      maximizeLoop sortSlice (fuel + 1) ordered pool = .ok o := by
  intro fuel
  induction fuel with
  | zero =>
    intro ordered pool o h
    cases pool with
    | nil => simpa [maximizeLoop] using h
    | cons t ts => simp [maximizeLoop] at h
  | succ fuel ih =>
    intro ordered pool o h
    cases pool with
    | nil => simpa [maximizeLoop] using h
    | cons t ts =>
      rw [maximizeLoop] at h ⊢
      cases hstep : maximizeStep sortSlice ordered (t :: ts) with
      | error e => rw [hstep] at h; simp at h
      | ok r =>
        rw [hstep] at h
        exact ih _ _ _ h

theorem maximizeStep_extends (sortSlice : SortSlice) (ordered pool ordered' pool' : List QuorumTuple)
    (h : maximizeStep sortSlice ordered pool = .ok (ordered', pool')) :
    ∃ next, ordered' = ordered ++ [next] := by
  unfold maximizeStep at h
  split at h
  · simp at h
  · simp only at h
    split at h
    · split at h
      · simp at h
      · split at h
        · simp at h
        · rename_i nextTuple _
          simp only [Except.ok.injEq, Prod.mk.injEq] at h
          exact ⟨nextTuple, h.1.symm⟩
    · split at h
      · simp at h
      · split at h
        · simp at h
        · rename_i nextTuple _
          simp only [Except.ok.injEq, Prod.mk.injEq] at h
          exact ⟨nextTuple, h.1.symm⟩

/-- Whatever the sort does, a run of the loop that returns has only appended
to the ordered tuples. -/
theorem maximizeLoop_extends (sortSlice : SortSlice) :
    ∀ (fuel : Nat) (ordered pool o : List QuorumTuple),
      maximizeLoop sortSlice fuel ordered pool = .ok o → ∃ rest, o = ordered ++ rest := by
  intro fuel
  induction fuel with
  | zero =>
    intro ordered pool o h
    cases pool with
    | nil =>
      simp only [maximizeLoop, Except.ok.injEq] at h
      exact ⟨[], by simp [h]⟩
    | cons t ts => simp [maximizeLoop] at h
  | succ fuel ih =>
    intro ordered pool o h
    cases pool with
    | nil =>
      simp only [maximizeLoop, Except.ok.injEq] at h
      exact ⟨[], by simp [h]⟩
    | cons t ts =>
      rw [maximizeLoop] at h
      cases hstep : maximizeStep sortSlice ordered (t :: ts) with
      | error e => rw [hstep] at h; simp at h
      | ok r =>
        obtain ⟨ordered', pool'⟩ := r
        rw [hstep] at h
        obtain ⟨next, hnext⟩ := maximizeStep_extends sortSlice _ _ _ _ hstep
        obtain ⟨rest, hrest⟩ := ih _ _ _ h
        exact ⟨next :: rest, by rw [hrest, hnext]; simp⟩

theorem selections_eq_nil (k : Nat) (l : List Int) (h : l.length < k) : selections k l = [] := by
  apply List.length_eq_zero.1
  rw [length_selections]
  exact Nat.choose_eq_zero_of_lt h

/-- The last slot index is not among the first `c` entries of a node's
ordering as long as `c` is less than the number of the node's member slots. -/
theorem last_slot_not_mem_take (pid : NodeId) (o : List QuorumTuple) (c : Nat)
    (hc : c < (memberSlots pid o).length) :
    o.length - 1 ∉ (memberSlots pid o ++ otherSlots pid o).take c := by
  rw [List.take_append_of_le_length (Nat.le_of_lt hc)]
  intro hmem
  have hsorted := sorted_memberSlots pid o
  rw [← List.take_append_drop c (memberSlots pid o), List.pairwise_append] at hsorted
  have hne : (memberSlots pid o).drop c ≠ [] := by
    intro h
    have := congrArg List.length h
    simp only [List.length_drop, List.length_nil] at this
    omega
  obtain ⟨b, hb⟩ := List.exists_mem_of_ne_nil _ hne
  have h1 := hsorted.2.2 _ hmem b hb
  have h2 : b ∈ memberSlots pid o := List.mem_of_mem_drop hb
  unfold memberSlots at h2
  have h3 := List.mem_range.1 (List.mem_filter.1 h2).1
  omega

/-- The number of nodes that have slot `s` among the first `c` entries of their
ordering, over the orderings built from the quorum sequence `o`. -/
theorem countP_take_congr (sortSlice : SortSlice) (numNodes quorumSize : Int)
    (o : List QuorumTuple)
    (hnew : ∀ pid, NewMetronome sortSlice pid numNodes quorumSize
      = .ok { Pid := pid, MyOrdering := memberSlots pid o ++ otherSlots pid o,
              AllOrderings := [], CriticalLen := (memberSlots pid o).length })
    (s c : Nat) :
    (nodeIds numNodes).countP (fun p =>
        match NewMetronome sortSlice p numNodes quorumSize with
        | .ok m => decide (s ∈ m.MyOrdering.take c)
        | .error _ => false)
      = (nodeIds numNodes).countP (fun p =>
          decide (s ∈ (memberSlots p o ++ otherSlots p o).take c)) := by
  apply List.countP_congr
  intro p _
  rw [hnew p]

/-! ## The tie-break of the insertion sort -/

theorem firstMaximal_mem (key : QuorumTuple → Int) (xs : List QuorumTuple) (m : QuorumTuple)
    (h : firstMaximal key xs = some m) : m ∈ xs := by
  induction xs generalizing m with
  | nil => simp [firstMaximal] at h
  | cons x xs ih =>
    simp only [firstMaximal] at h
    cases hx : firstMaximal key xs with
    | none =>
      rw [hx] at h
      simp only [Option.some.injEq] at h
      simp [h]
    | some m' =>
      rw [hx] at h
      simp only at h
      split at h
      · simp only [Option.some.injEq] at h
        simp [h]
      · simp only [Option.some.injEq] at h
        subst h
        exact List.mem_cons_of_mem _ (ih m' hx)

/-- The relational and the computed notion of the first maximal element
agree. -/
theorem firstMaximal_of_FirstMaximal (key : QuorumTuple → Int) (xs : List QuorumTuple)
    (m : QuorumTuple) (h : FirstMaximal key xs m) : firstMaximal key xs = some m := by
  obtain ⟨l1, l2, hxs, h1, h2⟩ := h
  subst hxs
  induction l1 with
  | nil =>
    simp only [List.nil_append, firstMaximal]
    cases hx : firstMaximal key l2 with
    | none => rfl
    | some m' =>
      simp only
      rw [if_pos (h2 m' (firstMaximal_mem key l2 m' hx))]
  | cons x l1 ih =>
    have ih' := ih (fun r hr => h1 r (List.mem_cons_of_mem _ hr))
    have hx := h1 x (List.mem_cons_self _ _)
    have hc : ¬ key m ≤ key x := by omega
    show firstMaximal key (x :: (l1 ++ m :: l2)) = some m
    rw [firstMaximal, ih']
    simp only
    rw [if_neg hc]

theorem firstMaximal_le_key {key : QuorumTuple → Int} {xs : List QuorumTuple} {m : QuorumTuple}
    (h : FirstMaximal key xs m) : ∀ r ∈ xs, key r ≤ key m := by
  obtain ⟨l1, l2, hxs, h1, h2⟩ := h
  subst hxs
  intro r hr
  rcases List.mem_append.1 hr with h | h
  · exact le_of_lt (h1 r h)
  · rcases List.mem_cons.1 h with rfl | h'
    · exact le_refl _
    · exact h2 r h'

theorem firstMaximal_snoc {key : QuorumTuple → Int} {xs : List QuorumTuple} {m : QuorumTuple}
    (h : FirstMaximal key xs m) (x : QuorumTuple) :
    FirstMaximal key (xs ++ [x]) (if key m < key x then x else m) := by
  have hle := firstMaximal_le_key h
  obtain ⟨l1, l2, hxs, h1, h2⟩ := h
  split
  · rename_i hlt
    refine ⟨xs, [], rfl, ?_, by simp⟩
    intro r hr
    exact lt_of_le_of_lt (hle r hr) hlt
  · rename_i hnlt
    refine ⟨l1, l2 ++ [x], by simp [hxs], h1, ?_⟩
    intro r hr
    rcases List.mem_append.1 hr with h | h
    · exact h2 r h
    · have : r = x := by simpa using h
      subst this
      omega

theorem insertBack_ne_nil (less : QuorumTuple → QuorumTuple → Bool) (x : QuorumTuple)
    (rev : List QuorumTuple) : insertBack less x rev ≠ [] := by
  cases rev with
  | nil => simp [insertBack]
  | cons y rev =>
    simp only [insertBack]
    split <;> simp

/-- The last element of the reversed sorted slice after an insertion: the new
element if its key exceeds the key of the previous last element, which bounds
every key of the slice. -/
theorem getLast?_insertBack (key : QuorumTuple → Int) (x m : QuorumTuple) :
    ∀ rev : List QuorumTuple, rev.getLast? = some m → (∀ y ∈ rev, key y ≤ key m) →
      (insertBack (fun a b => decide (key b < key a)) x rev).getLast?
        = some (if key m < key x then x else m) := by
  intro rev
  induction rev with
  | nil => intro h; simp at h
  | cons y rev ih =>
    intro hlast hmax
    cases rev with
    | nil =>
      simp only [List.getLast?_singleton, Option.some.injEq] at hlast
      subst hlast
      simp only [insertBack]
      by_cases h : key y < key x <;> simp [h]
    | cons z rev =>
      have hlast' : (z :: rev).getLast? = some m := by
        rw [List.getLast?_cons_cons] at hlast
        exact hlast
      have hmax' : ∀ w ∈ z :: rev, key w ≤ key m :=
        fun w hw => hmax w (List.mem_cons_of_mem _ hw)
      rw [insertBack]
      by_cases h : key y < key x
      · simp only [h, decide_True, if_true]
        have hne := insertBack_ne_nil (fun a b => decide (key b < key a)) x (z :: rev)
        obtain ⟨w, ws, hw⟩ := List.exists_cons_of_ne_nil hne
        rw [hw, List.getLast?_cons_cons, ← hw]
        exact ih hlast' hmax'
      · simp only [h, decide_False]
        have hym := hmax y (List.mem_cons_self _ _)
        have hc : ¬ key m < key x := by omega
        rw [if_neg hc]
        simp only [Bool.false_eq_true, if_false]
        rw [List.getLast?_cons_cons]
        exact hlast

/-- The insertion sort by decreasing key puts the first element of maximal
key first. -/
theorem head?_insertionSortFunc (key : QuorumTuple → Int) (xs : List QuorumTuple)
    (hne : xs ≠ []) :
    ∃ m, (insertionSortFunc (fun a b => decide (key b < key a)) xs).head? = some m
      ∧ FirstMaximal key xs m := by
  unfold insertionSortFunc
  simp only [List.head?_reverse]
  induction xs using List.reverseRecOn with
  | nil => exact absurd rfl hne
  | append_singleton q x ih =>
    rw [List.foldl_append]
    simp only [List.foldl_cons, List.foldl_nil]
    by_cases hq : q = []
    · subst hq
      exact ⟨x, by simp [insertBack], [], [], rfl, by simp, by simp⟩
    · obtain ⟨m, hm, hfm⟩ := ih hq
      refine ⟨_, getLast?_insertBack key x m _ hm ?_, firstMaximal_snoc hfm x⟩
      intro y hy
      have hperm := perm_foldl_insertBack (fun a b => decide (key b < key a)) q []
      exact firstMaximal_le_key hfm y (by simpa using hperm.subset hy)

theorem insertionSortRange_full (less : QuorumTuple → QuorumTuple → Bool)
    (xs : List QuorumTuple) :
    insertionSortRange less xs 0 xs.length = insertionSortFunc less xs := by
  simp [insertionSortRange]

/-- On at most 12 elements the modelled library sort is the insertion sort. -/
theorem librarySortSlice_short (less : QuorumTuple → QuorumTuple → Bool)
    (xs : List QuorumTuple) (h : xs.length ≤ 12) :
    librarySortSlice less xs = insertionSortFunc less xs := by
  unfold librarySortSlice sliceSort
  have hf : 2 * xs.length + 2 = (2 * xs.length + 1) + 1 := rfl
  rw [hf, pdqsortFunc]
  simp only [Nat.sub_zero, h, if_true, insertionSortRange_full]

/-- A selection step whose candidates a sort orders as the insertion sort
does: the first candidate of maximal distance is selected. -/
theorem maximizeStep_first_maximal (sortSlice : SortSlice) (pre : List QuorumTuple)
    (last : QuorumTuple) (pool : List QuorumTuple) (hne : pool ≠ [])
    (hlen : ∀ t ∈ pool, t.length = last.length)
    (hsort : sortSlice (fartherFrom last) (stepCandidates last pool)
      = insertionSortFunc (fartherFrom last) (stepCandidates last pool)) :
    ∃ next pool', maximizeStep sortSlice (pre ++ [last]) pool
        = .ok (pre ++ [last] ++ [next], pool')
      ∧ FirstMaximal (distanceValue last) (stepCandidates last pool) next := by
  unfold maximizeStep
  rw [List.getLast?_concat]
  simp only
  unfold stepCandidates at hsort ⊢
  by_cases hnr : 0 < (pool.filter (fun t => (intersect last t).length == 0)).length
  · rw [if_pos hnr] at hsort ⊢
    rw [if_pos hnr, sortByDistance_ok sortSlice last _
      (fun t ht => hlen t (List.mem_filter.1 ht).1), hsort]
    obtain ⟨m, hm, hfm⟩ := head?_insertionSortFunc (distanceValue last) _
      (List.ne_nil_of_length_pos hnr)
    change (insertionSortFunc (fartherFrom last) _).head? = some m at hm
    simp only [hm]
    exact ⟨m, _, rfl, hfm⟩
  · rw [if_neg hnr] at hsort ⊢
    rw [if_neg hnr, sortByDistance_ok sortSlice last pool hlen, hsort]
    obtain ⟨m, hm, hfm⟩ := head?_insertionSortFunc (distanceValue last) pool hne
    change (insertionSortFunc (fartherFrom last) _).head? = some m at hm
    simp only [hm]
    exact ⟨m, _, rfl, hfm⟩

set_option maxRecDepth 100000 in
/-- The shortest slice the library does not sort by insertion: after `{1,2}`,
from a pool of 13 tuples that share no identifier with it, the library sort
puts `{6,7}` first and the step selects it, although `{5,8}`, which comes
earlier in the pool, has the same, maximal distance 7. -/
theorem thirteen_candidates_not_stable :
    sliceSort (fartherFrom [1, 2])
        [[3, 4], [3, 5], [3, 6], [5, 8], [3, 7], [3, 8], [6, 7], [4, 5], [4, 6], [6, 8],
          [4, 7], [4, 8], [5, 6]]
      = some [[6, 7], [5, 8], [6, 8], [3, 8], [4, 8], [3, 7], [4, 6], [4, 7], [5, 6], [3, 6],
          [4, 5], [3, 5], [3, 4]]
    ∧ maximizeStep librarySortSlice [[1, 2]]
        [[3, 4], [3, 5], [3, 6], [5, 8], [3, 7], [3, 8], [6, 7], [4, 5], [4, 6], [6, 8],
          [4, 7], [4, 8], [5, 6]]
      = .ok ([[1, 2], [6, 7]],
          [[3, 4], [3, 5], [3, 6], [5, 8], [3, 7], [3, 8], [4, 5], [4, 6], [6, 8], [4, 7],
            [4, 8], [5, 6]])
    ∧ stepCandidates [1, 2]
        [[3, 4], [3, 5], [3, 6], [5, 8], [3, 7], [3, 8], [6, 7], [4, 5], [4, 6], [6, 8],
          [4, 7], [4, 8], [5, 6]]
      = [[3, 4], [3, 5], [3, 6], [5, 8], [3, 7], [3, 8], [6, 7], [4, 5], [4, 6], [6, 8],
          [4, 7], [4, 8], [5, 6]]
    ∧ distanceValue [1, 2] [5, 8] = 7 ∧ distanceValue [1, 2] [6, 7] = 7
    ∧ ¬ FirstMaximal (distanceValue [1, 2])
        (stepCandidates [1, 2]
          [[3, 4], [3, 5], [3, 6], [5, 8], [3, 7], [3, 8], [6, 7], [4, 5], [4, 6], [6, 8],
            [4, 7], [4, 8], [5, 6]])
        [6, 7] := by
  refine ⟨by decide, by decide, by decide, by decide, by decide, ?_⟩
  intro h
  have h1 := firstMaximal_of_FirstMaximal _ _ _ h
  revert h1
  decide

/-! ## The enumerator -/

/-- C1: for `1 ≤ quorumSize ≤ numNodes`, `combinations(1, numNodes, quorumSize)`
returns a list in which a tuple occurs exactly when it is a strictly ascending
sequence of `quorumSize` identifiers from `1..numNodes`; hence every
`quorumSize`-element subset of `{1..numNodes}` is the member set of a tuple of
the list. -/
theorem combinations_complete (numNodes quorumSize : Int) (hn : 1 ≤ numNodes)
    (hq : 1 ≤ quorumSize) (hqn : quorumSize ≤ numNodes) :
    ∃ cs, combinations 1 numNodes quorumSize = .ok cs
      ∧ (∀ t : QuorumTuple, t ∈ cs ↔
          ((t.length : Int) = quorumSize ∧ t.Pairwise (fun a b => a < b)
            ∧ ∀ x ∈ t, 1 ≤ x ∧ x ≤ numNodes))
      ∧ (∀ S : Finset Int, S ⊆ Finset.Icc 1 numNodes → (S.card : Int) = quorumSize →
          ∃ t ∈ cs, t.toFinset = S) := by
  have _ := hn
  have _ := hqn
  refine ⟨_, combinations_ok 1 numNodes quorumSize (by omega), ?_, ?_⟩
  · intro t
    exact mem_combinations 1 numNodes quorumSize (by omega) t
  · intro S hS hc
    refine ⟨S.sort (fun a b => a ≤ b), ?_, Finset.sort_toFinset _ S⟩
    rw [mem_combinations 1 numNodes quorumSize (by omega)]
    refine ⟨by simpa using hc, Finset.sort_sorted_lt S, ?_⟩
    intro x hx
    have := hS ((Finset.mem_sort _).1 hx)
    simpa using this

/-- C1, at `numNodes = 4`, `quorumSize = 2`. -/
theorem combinations_complete_witness :
    ∃ cs, combinations 1 4 2 = .ok cs
      ∧ (∀ t : QuorumTuple, t ∈ cs ↔
          ((t.length : Int) = 2 ∧ t.Pairwise (fun a b => a < b) ∧ ∀ x ∈ t, 1 ≤ x ∧ x ≤ 4))
      ∧ (∀ S : Finset Int, S ⊆ Finset.Icc 1 4 → (S.card : Int) = 2 →
          ∃ t ∈ cs, t.toFinset = S) :=
  combinations_complete 4 2 (by decide) (by decide) (by decide)

/-- C10: for `1 ≤ quorumSize ≤ numNodes`, `combinations(1, numNodes, quorumSize)`
returns a list of `C(numNodes, quorumSize)` tuples. -/
theorem combinations_length (numNodes quorumSize : Int) (hn : 1 ≤ numNodes)
    (hq : 1 ≤ quorumSize) (hqn : quorumSize ≤ numNodes) :
    ∃ cs, combinations 1 numNodes quorumSize = .ok cs
      ∧ cs.length = numNodes.toNat.choose quorumSize.toNat := by
  have _ := hqn
  refine ⟨_, combinations_ok 1 numNodes quorumSize (by omega), ?_⟩
  rw [length_selections, length_loopValues]
  congr 1
  omega

/-- C10, at `numNodes = 5`, `quorumSize = 3`: ten tuples. -/
theorem combinations_length_witness :
    ∃ cs, combinations 1 5 3 = .ok cs ∧ cs.length = (5 : Int).toNat.choose (3 : Int).toNat :=
  combinations_length 5 3 (by decide) (by decide) (by decide)

/-! ## The sequencer -/

/-- C2: `maximizeDistanceOrdering` returns a permutation of every non-empty
input of equal-length tuples; for `1 ≤ quorumSize ≤ numNodes`,
`createOrderedQuorums(numNodes, quorumSize)` is a permutation of
`combinations(1, numNodes, quorumSize)` of length `C(numNodes, quorumSize)`,
its quorums are pairwise distinct, and each has `quorumSize` distinct members
from `1..numNodes`. -/
theorem maximizeDistanceOrdering_perm (sortSlice : SortSlice)
    (hs : SortSliceSpec sortSlice) :
    (∀ input : List QuorumTuple, input ≠ [] →
        (∀ t ∈ input, ∀ u ∈ input, t.length = u.length) →
        ∃ o, maximizeDistanceOrdering sortSlice input = .ok o ∧ o.Perm input
          ∧ o.length = input.length)
    ∧ (∀ numNodes quorumSize : Int, 1 ≤ numNodes → 1 ≤ quorumSize → quorumSize ≤ numNodes →
        ∃ cs o, combinations 1 numNodes quorumSize = .ok cs
          ∧ createOrderedQuorums sortSlice numNodes quorumSize = .ok o
          ∧ o.Perm cs ∧ o.length = numNodes.toNat.choose quorumSize.toNat ∧ o.Nodup
          ∧ ∀ t ∈ o, (t.length : Int) = quorumSize ∧ t.Nodup
              ∧ ∀ x ∈ t, 1 ≤ x ∧ x ≤ numNodes) := by
  constructor
  · intro input hne hlen
    obtain ⟨first, rest, h1, _, h3, _⟩ :=
      maximizeDistanceOrdering_of_input sortSlice hs input hne hlen
    exact ⟨_, h1, h3, h3.length_eq⟩
  · intro numNodes quorumSize _ hq hqn
    obtain ⟨first, rest, h1, _, h3, _⟩ :=
      createOrderedQuorums_ok sortSlice hs numNodes quorumSize hq hqn
    refine ⟨_, _, combinations_ok 1 numNodes quorumSize (by omega), h1, h3, ?_, ?_, ?_⟩
    · rw [h3.length_eq, length_selections, length_loopValues]
      congr 1
      omega
    · exact h3.nodup_iff.2 (nodup_selections _ _ (nodup_loopValues 1 numNodes))
    · intro t ht
      have := (mem_combinations 1 numNodes quorumSize (by omega) t).1 (h3.subset ht)
      exact ⟨this.1, this.2.1.imp (fun h => ne_of_lt h), this.2.2⟩

/-- C7: in the output `o` of `maximizeDistanceOrdering` on a non-empty input
of equal-length tuples, whenever some quorum after position `i` shares no
identifier with `o[i]`, the quorum `o[i+1]` shares none with `o[i]`. -/
theorem no_repeat_preferred (sortSlice : SortSlice) (hs : SortSliceSpec sortSlice)
    (input : List QuorumTuple) (hne : input ≠ [])
    (hlen : ∀ t ∈ input, ∀ u ∈ input, t.length = u.length) :
    ∃ o, maximizeDistanceOrdering sortSlice input = .ok o
      ∧ ∀ (i : Nat) (a b : QuorumTuple), o[i]? = some a → o[i + 1]? = some b →
          (∃ j c, i < j ∧ o[j]? = some c ∧ List.Disjoint a c) → List.Disjoint a b := by
  obtain ⟨first, rest, h1, _, _, h4⟩ :=
    maximizeDistanceOrdering_of_input sortSlice hs input hne hlen
  refine ⟨_, h1, ?_⟩
  rintro i a b ha hb ⟨j, c, hij, hc, hd⟩
  refine (selectedInTurn_getElem rest first i a b h4 ha hb).1 ⟨c, ?_, hd⟩
  exact (mem_drop_iff _ _ _).2 ⟨j, hij, hc⟩

/-- C8: in the output `o` of `maximizeDistanceOrdering` on a non-empty input
of equal-length tuples, `o[i+1]` is at least as far from `o[i]` as every later
quorum sharing no identifier with `o[i]` when there is one, and as every
later quorum otherwise; and the input `[{1,2,3},{4,5,6},{7,8,9},{10,11,12}]`
yields `[{1,2,3},{10,11,12},{4,5,6},{7,8,9}]`. -/
theorem farthest_candidate_selected (sortSlice : SortSlice) (hs : SortSliceSpec sortSlice) :
    (∀ input : List QuorumTuple, input ≠ [] →
      (∀ t ∈ input, ∀ u ∈ input, t.length = u.length) →
      ∃ o, maximizeDistanceOrdering sortSlice input = .ok o
        ∧ ∀ (i : Nat) (a b : QuorumTuple), o[i]? = some a → o[i + 1]? = some b →
            ∃ d, distance a b = .ok d
              ∧ ((∃ j c, i < j ∧ o[j]? = some c ∧ List.Disjoint a c) →
                  ∀ j c, i < j → o[j]? = some c → List.Disjoint a c →
                    ∃ dc, distance a c = .ok dc ∧ dc ≤ d)
              ∧ ((¬ ∃ j c, i < j ∧ o[j]? = some c ∧ List.Disjoint a c) →
                  ∀ j c, i < j → o[j]? = some c → ∃ dc, distance a c = .ok dc ∧ dc ≤ d))
    ∧ maximizeDistanceOrdering sortSlice [[1, 2, 3], [4, 5, 6], [7, 8, 9], [10, 11, 12]]
        = .ok [[1, 2, 3], [10, 11, 12], [4, 5, 6], [7, 8, 9]] := by
  constructor
  · intro input hne hlen
    obtain ⟨first, rest, h1, _, h3, h4⟩ :=
      maximizeDistanceOrdering_of_input sortSlice hs input hne hlen
    refine ⟨_, h1, ?_⟩
    intro i a b ha hb
    have hsame : ∀ (j : Nat) (c : QuorumTuple), (first :: rest)[j]? = some c →
        a.length = c.length := by
      intro j c hc
      exact hlen a (h3.subset (List.mem_iff_getElem?.2 ⟨i, ha⟩)) c
        (h3.subset (List.mem_iff_getElem?.2 ⟨j, hc⟩))
    have hfar := (selectedInTurn_getElem rest first i a b h4 ha hb).2
    refine ⟨_, distance_ok a b (hsame _ b hb), ?_, ?_⟩
    · rintro ⟨j, c, hij, hc, hd⟩ j' c' hij' hc' hd'
      refine ⟨_, distance_ok a c' (hsame _ c' hc'), ?_⟩
      exact hfar.1 ⟨c, (mem_drop_iff _ _ _).2 ⟨j, hij, hc⟩, hd⟩ c'
        ((mem_drop_iff _ _ _).2 ⟨j', hij', hc'⟩) hd'
    · intro hno j' c' hij' hc'
      refine ⟨_, distance_ok a c' (hsame _ c' hc'), ?_⟩
      refine hfar.2 ?_ c' ((mem_drop_iff _ _ _).2 ⟨j', hij', hc'⟩)
      rintro ⟨r, hr, hd⟩
      obtain ⟨j, hij, hc⟩ := (mem_drop_iff _ _ _).1 hr
      exact hno ⟨j, r, hij, hc, hd⟩
  · exact example_order sortSlice hs

set_option maxRecDepth 100000 in
/-- C2, at the input of the test file and at `numNodes = 5`, `quorumSize = 3`,
with the library insertion sort. -/
theorem maximizeDistanceOrdering_perm_witness :
    (∃ o, maximizeDistanceOrdering insertionSortFunc
          [[1, 2, 3], [4, 5, 6], [7, 8, 9], [10, 11, 12]] = .ok o
        ∧ o.Perm [[1, 2, 3], [4, 5, 6], [7, 8, 9], [10, 11, 12]]
        ∧ o.length = ([[1, 2, 3], [4, 5, 6], [7, 8, 9], [10, 11, 12]] : List QuorumTuple).length)
    ∧ (∃ cs o, combinations 1 5 3 = .ok cs
        ∧ createOrderedQuorums insertionSortFunc 5 3 = .ok o
        ∧ o.Perm cs ∧ o.length = (5 : Int).toNat.choose (3 : Int).toNat ∧ o.Nodup
        ∧ ∀ t ∈ o, (t.length : Int) = 3 ∧ t.Nodup ∧ ∀ x ∈ t, 1 ≤ x ∧ x ≤ 5) :=
  ⟨(maximizeDistanceOrdering_perm insertionSortFunc insertionSortFunc_spec).1
      [[1, 2, 3], [4, 5, 6], [7, 8, 9], [10, 11, 12]] (by decide) (by decide),
    (maximizeDistanceOrdering_perm insertionSortFunc insertionSortFunc_spec).2 5 3
      (by decide) (by decide) (by decide)⟩

set_option maxRecDepth 100000 in
/-- C7, at the input `[{1,2},{1,3},{3,4},{2,4}]` with the library insertion
sort: the run returns `[{1,2},{3,4},{1,3},{2,4}]`, the quorum disjoint from
the seed coming second. -/
theorem no_repeat_preferred_witness :
    maximizeDistanceOrdering insertionSortFunc [[1, 2], [1, 3], [3, 4], [2, 4]]
        = .ok [[1, 2], [3, 4], [1, 3], [2, 4]]
    ∧ ∃ o, maximizeDistanceOrdering insertionSortFunc [[1, 2], [1, 3], [3, 4], [2, 4]] = .ok o
      ∧ ∀ (i : Nat) (a b : QuorumTuple), o[i]? = some a → o[i + 1]? = some b →
          (∃ j c, i < j ∧ o[j]? = some c ∧ List.Disjoint a c) → List.Disjoint a b :=
  ⟨by decide,
    no_repeat_preferred insertionSortFunc insertionSortFunc_spec
      [[1, 2], [1, 3], [3, 4], [2, 4]] (by decide) (by decide)⟩

set_option maxRecDepth 100000 in
/-- C8, at the input of the test file with the library insertion sort. -/
theorem farthest_candidate_selected_witness :
    (∃ o, maximizeDistanceOrdering insertionSortFunc
          [[1, 2, 3], [4, 5, 6], [7, 8, 9], [10, 11, 12]] = .ok o
        ∧ ∀ (i : Nat) (a b : QuorumTuple), o[i]? = some a → o[i + 1]? = some b →
            ∃ d, distance a b = .ok d
              ∧ ((∃ j c, i < j ∧ o[j]? = some c ∧ List.Disjoint a c) →
                  ∀ j c, i < j → o[j]? = some c → List.Disjoint a c →
                    ∃ dc, distance a c = .ok dc ∧ dc ≤ d)
              ∧ ((¬ ∃ j c, i < j ∧ o[j]? = some c ∧ List.Disjoint a c) →
                  ∀ j c, i < j → o[j]? = some c → ∃ dc, distance a c = .ok dc ∧ dc ≤ d))
    ∧ maximizeDistanceOrdering insertionSortFunc
        [[1, 2, 3], [4, 5, 6], [7, 8, 9], [10, 11, 12]]
        = .ok [[1, 2, 3], [10, 11, 12], [4, 5, 6], [7, 8, 9]] :=
  ⟨(farthest_candidate_selected insertionSortFunc insertionSortFunc_spec).1
      [[1, 2, 3], [4, 5, 6], [7, 8, 9], [10, 11, 12]] (by decide) (by decide),
    (farthest_candidate_selected insertionSortFunc insertionSortFunc_spec).2⟩

/-! ## The distance -/

set_option maxRecDepth 100000 in
/-- C9 fails as stated: the squared differences of `{1,2,3}` and
`{8193,8194,67108867}` sum to `2^52 + 2^27`, whose integer square root is
`67108864`, and `distance` returns `67108865`. -/
theorem distance_exceeds_sqrt :
    distance [1, 2, 3] [8193, 8194, 67108867] = .ok 67108865
      ∧ squaredDifferences [1, 2, 3] [8193, 8194, 67108867] = 4503599761588224
      ∧ Nat.sqrt (squaredDifferences [1, 2, 3] [8193, 8194, 67108867]).toNat = 67108864 := by
  have h : squaredDifferences [1, 2, 3] [8193, 8194, 67108867] = 4503599761588224 := by
    decide
  refine ⟨by decide, h, ?_⟩
  rw [h]
  symm
  rw [Nat.eq_sqrt]
  decide

/-- C9, amended: on equal-length tuples whose squared differences sum to less
than `2^52 + 2^27`, `distance` is the truncated integer square root of that
sum; in particular `distance({1,2,3}, {4,5,6}) = 5`. -/
theorem distance_floor_sqrt (a b : QuorumTuple) (hlen : a.length = b.length)
    (hsum : squaredDifferences a b < 4503599761588224) :
    distance a b = .ok ((Nat.sqrt (squaredDifferences a b).toNat : Nat) : Int)
      ∧ distance [1, 2, 3] [4, 5, 6] = .ok 5 := by
  refine ⟨distance_eq_sqrt a b hlen hsum, ?_⟩
  rw [distance_eq_sqrt [1, 2, 3] [4, 5, 6] rfl (by decide)]
  have h : (squaredDifferences [1, 2, 3] [4, 5, 6]).toNat = 27 := by decide
  have h5 : Nat.sqrt 27 = 5 := by
    symm
    rw [Nat.eq_sqrt]
    decide
  rw [h, h5]
  rfl

/-- C9 amended, at `{1,2,3}` and `{4,5,6}`. -/
theorem distance_floor_sqrt_witness :
    distance [1, 2, 3] [4, 5, 6]
        = .ok ((Nat.sqrt (squaredDifferences [1, 2, 3] [4, 5, 6]).toNat : Nat) : Int)
      ∧ distance [1, 2, 3] [4, 5, 6] = .ok 5 :=
  distance_floor_sqrt [1, 2, 3] [4, 5, 6] (by decide) (by decide)

/-! ## The per-node ordering -/

/-- C3: for `1 ≤ quorumSize ≤ numNodes` and node identifiers `p`, `q` in
`1..numNodes`, the Metronomes of `p` and `q` have the same `CriticalLen`,
namely `C(numNodes - 1, quorumSize - 1)`. -/
theorem criticalLen_agreement (sortSlice : SortSlice) (hs : SortSliceSpec sortSlice)
    (numNodes quorumSize : Int) (hn : 1 ≤ numNodes) (hq : 1 ≤ quorumSize)
    (hqn : quorumSize ≤ numNodes) (p q : NodeId) (hp : 1 ≤ p ∧ p ≤ numNodes)
    (hq' : 1 ≤ q ∧ q ≤ numNodes) :
    ∃ mp mq, NewMetronome sortSlice p numNodes quorumSize = .ok mp
      ∧ NewMetronome sortSlice q numNodes quorumSize = .ok mq
      ∧ mp.CriticalLen = mq.CriticalLen
      ∧ mp.CriticalLen = (numNodes - 1).toNat.choose (quorumSize - 1).toNat := by
  have _ := hn
  obtain ⟨o, _, hperm, hnew⟩ := NewMetronome_ok sortSlice hs numNodes quorumSize hq hqn
  have hcount : ∀ r : NodeId, 1 ≤ r ∧ r ≤ numNodes →
      (memberSlots r o).length = (numNodes - 1).toNat.choose (quorumSize - 1).toNat := by
    intro r hr
    rw [length_memberSlots, hperm.countP_eq]
    have hk : quorumSize.toNat = (quorumSize - 1).toNat + 1 := by omega
    rw [hk, countP_selections_of_mem r _ _ (nodup_loopValues 1 numNodes)
      ((mem_loopValues 1 numNodes r).2 hr), length_loopValues]
    congr 1
    omega
  refine ⟨_, _, hnew p, hnew q, ?_, ?_⟩
  · simp only [hcount p hp, hcount q hq']
  · exact hcount p hp

set_option maxRecDepth 100000 in
/-- C3, at `numNodes = 5`, `quorumSize = 3` and the nodes `1` and `4`, with the
library insertion sort: both critical lengths are `6`. -/
theorem criticalLen_agreement_witness :
    (∃ mp mq, NewMetronome insertionSortFunc 1 5 3 = .ok mp
        ∧ NewMetronome insertionSortFunc 4 5 3 = .ok mq
        ∧ mp.CriticalLen = mq.CriticalLen
        ∧ mp.CriticalLen = ((5 : Int) - 1).toNat.choose ((3 : Int) - 1).toNat)
      ∧ NewMetronome insertionSortFunc 4 5 3
        = .ok { Pid := 4, MyOrdering := [1, 3, 4, 5, 7, 9, 0, 2, 6, 8], AllOrderings := [],
                CriticalLen := 6 } :=
  ⟨criticalLen_agreement insertionSortFunc insertionSortFunc_spec 5 3 (by decide) (by decide)
      (by decide) 1 4 (by decide) (by decide),
    by decide⟩

/-- C4: for `1 ≤ quorumSize ≤ numNodes` all nodes of `1..numNodes` have one
`CriticalLen` `L`, and every slot index below `C(numNodes, quorumSize)` occurs
among the first `L` entries of `MyOrdering` for exactly `quorumSize` of the
nodes. -/
theorem coverage_at_criticalLen (sortSlice : SortSlice) (hs : SortSliceSpec sortSlice)
    (numNodes quorumSize : Int) (hn : 1 ≤ numNodes) (hq : 1 ≤ quorumSize)
    (hqn : quorumSize ≤ numNodes) :
    ∃ L : Nat,
      (∀ p ∈ nodeIds numNodes, ∃ m, NewMetronome sortSlice p numNodes quorumSize = .ok m
          ∧ m.CriticalLen = L)
      ∧ ∀ s : Nat, s < numNodes.toNat.choose quorumSize.toNat →
          (((nodeIds numNodes).countP (fun p =>
              match NewMetronome sortSlice p numNodes quorumSize with
              | .ok m => decide (s ∈ m.MyOrdering.take L)
              | .error _ => false) : Nat) : Int) = quorumSize := by
  obtain ⟨o, _, hperm, hnew⟩ := NewMetronome_ok sortSlice hs numNodes quorumSize hq hqn
  have hL : ∀ p ∈ nodeIds numNodes,
      (memberSlots p o).length = (numNodes - 1).toNat.choose (quorumSize - 1).toNat := by
    intro p hp
    exact length_memberSlots_eq_choose numNodes quorumSize hq o hperm p hp
  refine ⟨(numNodes - 1).toNat.choose (quorumSize - 1).toNat, ?_, ?_⟩
  · intro p hp
    exact ⟨_, hnew p, hL p hp⟩
  · intro s hs'
    have hlen : o.length = numNodes.toNat.choose quorumSize.toNat := by
      rw [hperm.length_eq, length_selections, length_loopValues]
      congr 1
      omega
    have hso : s < o.length := by omega
    have hmem := (mem_combinations 1 numNodes quorumSize (by omega) o[s]).1
      (hperm.subset (List.getElem_mem hso))
    have hcongr : (nodeIds numNodes).countP (fun p =>
          match NewMetronome sortSlice p numNodes quorumSize with
          | .ok m => decide (s ∈ m.MyOrdering.take
              ((numNodes - 1).toNat.choose (quorumSize - 1).toNat))
          | .error _ => false)
        = (nodeIds numNodes).countP (fun p => decide (p ∈ o[s])) := by
      apply List.countP_congr
      intro p hp
      rw [hnew p]
      simp only [← hL p hp, List.take_left, decide_eq_true_eq, mem_memberSlots]
      constructor
      · rintro ⟨t, ht, hpt⟩
        rw [List.getElem?_eq_getElem hso] at ht
        cases ht
        exact hpt
      · intro hpt
        exact ⟨o[s], List.getElem?_eq_getElem hso, hpt⟩
    rw [hcongr]
    unfold nodeIds
    rw [countP_mem_eq_length _ _ (nodup_loopValues 1 numNodes)
      (hmem.2.1.imp (fun h => ne_of_lt h))
      (fun x hx => (mem_loopValues 1 numNodes x).2 (hmem.2.2 x hx))]
    exact hmem.1

/-- C4, at `numNodes = 5`, `quorumSize = 3`, with the library insertion sort. -/
theorem coverage_at_criticalLen_witness :
    ∃ L : Nat,
      (∀ p ∈ nodeIds 5, ∃ m, NewMetronome insertionSortFunc p 5 3 = .ok m ∧ m.CriticalLen = L)
      ∧ ∀ s : Nat, s < (5 : Int).toNat.choose (3 : Int).toNat →
          (((nodeIds 5).countP (fun p =>
              match NewMetronome insertionSortFunc p 5 3 with
              | .ok m => decide (s ∈ m.MyOrdering.take L)
              | .error _ => false) : Nat) : Int) = 3 :=
  coverage_at_criticalLen insertionSortFunc insertionSortFunc_spec 5 3 (by decide) (by decide)
    (by decide)

/-- C5: for `1 ≤ quorumSize ≤ numNodes` and every `pid`, `MyOrdering` is a
permutation of the slot indices `0 .. C(numNodes, quorumSize) - 1`; summed over
the nodes `1..numNodes`, every slot index is counted `numNodes` times. -/
theorem ordering_perm_range (sortSlice : SortSlice) (hs : SortSliceSpec sortSlice)
    (numNodes quorumSize : Int) (hn : 1 ≤ numNodes) (hq : 1 ≤ quorumSize)
    (hqn : quorumSize ≤ numNodes) :
    (∀ pid : NodeId, ∃ m, NewMetronome sortSlice pid numNodes quorumSize = .ok m
        ∧ m.MyOrdering.Perm (List.range (numNodes.toNat.choose quorumSize.toNat)))
    ∧ ∀ s : Nat, s < numNodes.toNat.choose quorumSize.toNat →
        ((((nodeIds numNodes).map (fun p =>
            match NewMetronome sortSlice p numNodes quorumSize with
            | .ok m => m.MyOrdering.count s
            | .error _ => 0)).sum : Nat) : Int) = numNodes := by
  obtain ⟨o, _, hperm, hnew⟩ := NewMetronome_ok sortSlice hs numNodes quorumSize hq hqn
  have hlen : o.length = numNodes.toNat.choose quorumSize.toNat := by
    rw [hperm.length_eq, length_selections, length_loopValues]
    congr 1
    omega
  constructor
  · intro pid
    refine ⟨_, hnew pid, ?_⟩
    rw [← hlen]
    exact perm_slots pid o
  · intro s hs'
    have hone : ∀ p ∈ nodeIds numNodes,
        (match NewMetronome sortSlice p numNodes quorumSize with
          | .ok m => m.MyOrdering.count s
          | .error _ => 0) = 1 := by
      intro p _
      rw [hnew p]
      simp only
      rw [(perm_slots p o).count_eq]
      exact List.count_eq_one_of_mem (List.nodup_range _) (List.mem_range.2 (by omega))
    rw [List.map_congr_left hone]
    simp only [List.map_const', List.sum_replicate, smul_eq_mul, mul_one, nodeIds,
      length_loopValues]
    omega

/-- C5, at `numNodes = 5`, `quorumSize = 3`, with the library insertion sort. -/
theorem ordering_perm_range_witness :
    (∀ pid : NodeId, ∃ m, NewMetronome insertionSortFunc pid 5 3 = .ok m
        ∧ m.MyOrdering.Perm (List.range ((5 : Int).toNat.choose (3 : Int).toNat)))
    ∧ ∀ s : Nat, s < (5 : Int).toNat.choose (3 : Int).toNat →
        ((((nodeIds 5).map (fun p =>
            match NewMetronome insertionSortFunc p 5 3 with
            | .ok m => m.MyOrdering.count s
            | .error _ => 0)).sum : Nat) : Int) = 5 :=
  ordering_perm_range insertionSortFunc insertionSortFunc_spec 5 3 (by decide) (by decide)
    (by decide)

/-- C6: the ordering returned by `getMyOrderingAndCriticalLen(pid, qs)` is the
ascending list of the indices whose quorum contains `pid` followed by the
ascending list of the indices whose quorum does not. -/
theorem ordering_members_then_others (pid : NodeId) (qs : List QuorumTuple) :
    ∃ ms os : List Nat, (getMyOrderingAndCriticalLen pid qs).1 = ms ++ os
      ∧ ms.Pairwise (fun i j => i < j) ∧ os.Pairwise (fun i j => i < j)
      ∧ (∀ i, i ∈ ms ↔ ∃ q, qs[i]? = some q ∧ pid ∈ q)
      ∧ (∀ i, i ∈ os ↔ ∃ q, qs[i]? = some q ∧ pid ∉ q) := by
  refine ⟨memberSlots pid qs, otherSlots pid qs, ?_, sorted_memberSlots pid qs,
    sorted_otherSlots pid qs, mem_memberSlots pid qs, mem_otherSlots pid qs⟩
  rw [getMyOrderingAndCriticalLen_eq]

/-! ## Order of the enumeration and the critical prefix -/

/-- C11: for `1 ≤ quorumSize ≤ numNodes` the list
`combinations(1, numNodes, quorumSize)` is in strictly increasing
lexicographic order, so it has no duplicate, and each of its tuples is
strictly ascending. -/
theorem combinations_lex_sorted (numNodes quorumSize : Int) (hn : 1 ≤ numNodes)
    (hq : 1 ≤ quorumSize) (hqn : quorumSize ≤ numNodes) :
    ∃ cs, combinations 1 numNodes quorumSize = .ok cs
      ∧ cs.Pairwise (List.Lex (fun a b => a < b)) ∧ cs.Nodup
      ∧ ∀ t ∈ cs, t.Pairwise (fun a b => a < b) := by
  have _ := hn
  have _ := hqn
  refine ⟨_, combinations_ok 1 numNodes quorumSize (by omega),
    pairwise_lex_selections _ (sorted_loopValues 1 numNodes) _,
    nodup_selections _ _ (nodup_loopValues 1 numNodes), ?_⟩
  intro t ht
  exact ((mem_combinations 1 numNodes quorumSize (by omega) t).1 ht).2.1

/-- C11, at `numNodes = 4`, `quorumSize = 2`: the six tuples in order. -/
theorem combinations_lex_sorted_witness :
    combinations 1 4 2 = .ok [[1, 2], [1, 3], [1, 4], [2, 3], [2, 4], [3, 4]]
      ∧ ∃ cs, combinations 1 4 2 = .ok cs
        ∧ cs.Pairwise (List.Lex (fun a b => a < b)) ∧ cs.Nodup
        ∧ ∀ t ∈ cs, t.Pairwise (fun a b => a < b) :=
  ⟨by decide, combinations_lex_sorted 4 2 (by decide) (by decide) (by decide)⟩

/-- C12: for `1 ≤ quorumSize ≤ numNodes` and every `pid`, `getCriticalOrdering`
on the Metronome of `pid` returns the first `CriticalLen` entries of
`MyOrdering`; that list is ascending and holds exactly the slot indices of
`createOrderedQuorums(numNodes, quorumSize)` whose quorum contains `pid`, and
the entries after it are slots whose quorum lacks `pid`. -/
theorem criticalOrdering_member_slots (sortSlice : SortSlice) (hs : SortSliceSpec sortSlice)
    (numNodes quorumSize : Int) (hn : 1 ≤ numNodes) (hq : 1 ≤ quorumSize)
    (hqn : quorumSize ≤ numNodes) (pid : NodeId) :
    ∃ m o ms os, NewMetronome sortSlice pid numNodes quorumSize = .ok m
      ∧ createOrderedQuorums sortSlice numNodes quorumSize = .ok o
      ∧ getCriticalOrdering m = .ok ms
      ∧ ms = m.MyOrdering.take m.CriticalLen
      ∧ m.MyOrdering = ms ++ os
      ∧ ms.Pairwise (fun i j => i < j)
      ∧ (∀ i, i ∈ ms ↔ ∃ q, o[i]? = some q ∧ pid ∈ q)
      ∧ (∀ i, i ∈ os → ∃ q, o[i]? = some q ∧ pid ∉ q) := by
  have _ := hn
  obtain ⟨o, ho, _, hnew⟩ := NewMetronome_ok sortSlice hs numNodes quorumSize hq hqn
  refine ⟨_, o, memberSlots pid o, otherSlots pid o, hnew pid, ho, ?_, ?_, rfl,
    sorted_memberSlots pid o, mem_memberSlots pid o,
    fun i hi => (mem_otherSlots pid o i).1 hi⟩
  · unfold getCriticalOrdering
    simp
  · simp

set_option maxRecDepth 100000 in
/-- C12, at `numNodes = 5`, `quorumSize = 3`, node `4`, with the library
insertion sort: the critical ordering is `[1, 3, 4, 5, 7, 9]`. -/
theorem criticalOrdering_member_slots_witness :
    (∃ m, NewMetronome insertionSortFunc 4 5 3 = .ok m
        ∧ getCriticalOrdering m = .ok [1, 3, 4, 5, 7, 9])
      ∧ ∃ m o ms os, NewMetronome insertionSortFunc 4 5 3 = .ok m
        ∧ createOrderedQuorums insertionSortFunc 5 3 = .ok o
        ∧ getCriticalOrdering m = .ok ms
        ∧ ms = m.MyOrdering.take m.CriticalLen
        ∧ m.MyOrdering = ms ++ os
        ∧ ms.Pairwise (fun i j => i < j)
        ∧ (∀ i, i ∈ ms ↔ ∃ q, o[i]? = some q ∧ (4 : NodeId) ∈ q)
        ∧ (∀ i, i ∈ os → ∃ q, o[i]? = some q ∧ (4 : NodeId) ∉ q) :=
  ⟨⟨{ Pid := 4, MyOrdering := [1, 3, 4, 5, 7, 9, 0, 2, 6, 8], AllOrderings := [],
       CriticalLen := 6 }, by decide, by decide⟩,
    criticalOrdering_member_slots insertionSortFunc insertionSortFunc_spec 5 3 (by decide)
      (by decide) (by decide) 4⟩

/-- C17: for every quorum sequence `qs`, the empty one included, and every
`pid`, the critical length returned by `getMyOrderingAndCriticalLen(pid, qs)`
is the number of positions of `qs` whose quorum contains `pid`, which is the
length of the list of member slots. -/
theorem criticalLen_counts_member_slots (pid : NodeId) (qs : List QuorumTuple) :
    (getMyOrderingAndCriticalLen pid qs).2 = qs.countP (fun q => decide (pid ∈ q))
      ∧ (getMyOrderingAndCriticalLen pid qs).2 = (memberSlots pid qs).length
      ∧ (getMyOrderingAndCriticalLen pid []).2 = 0 := by
  refine ⟨?_, ?_, ?_⟩
  · rw [getMyOrderingAndCriticalLen_eq, length_memberSlots]
  · rw [getMyOrderingAndCriticalLen_eq]
  · rw [getMyOrderingAndCriticalLen_eq]
    simp [memberSlots]

/-! ## Seed, termination and majority quorums -/

/-- C18: a run of `maximizeDistanceOrdering` that returns has a non-empty
input and its first element first, whatever the sort; on a non-empty input of
equal-length tuples it returns; and for `1 ≤ quorumSize ≤ numNodes` the first
quorum of `createOrderedQuorums(numNodes, quorumSize)` is `(1, ..., quorumSize)`,
which precedes every other quorum lexicographically. -/
theorem first_quorum_is_seed (sortSlice : SortSlice) (hs : SortSliceSpec sortSlice) :
    (∀ (anySort : SortSlice) (input o : List QuorumTuple),
        maximizeDistanceOrdering anySort input = .ok o →
        input ≠ [] ∧ o.head? = input.head?)
    ∧ (∀ input : List QuorumTuple, input ≠ [] →
        (∀ t ∈ input, ∀ u ∈ input, t.length = u.length) →
        ∃ o, maximizeDistanceOrdering sortSlice input = .ok o ∧ o.head? = input.head?)
    ∧ (∀ numNodes quorumSize : Int, 1 ≤ numNodes → 1 ≤ quorumSize → quorumSize ≤ numNodes →
        ∃ o, createOrderedQuorums sortSlice numNodes quorumSize = .ok o
          ∧ o.head? = some (loopValues 1 quorumSize)
          ∧ ∀ t ∈ o, t = loopValues 1 quorumSize
              ∨ List.Lex (fun a b => a < b) (loopValues 1 quorumSize) t) := by
  refine ⟨?_, ?_, ?_⟩
  · intro anySort input o h
    cases input with
    | nil => simp [maximizeDistanceOrdering] at h
    | cons first pool =>
      obtain ⟨rest, hrest⟩ := maximizeLoop_extends anySort _ _ _ _ h
      exact ⟨by simp, by rw [hrest]; rfl⟩
  · intro input hne hlen
    obtain ⟨first, rest, h1, h2, _, _⟩ :=
      maximizeDistanceOrdering_of_input sortSlice hs input hne hlen
    exact ⟨_, h1, by rw [h2]; rfl⟩
  · intro numNodes quorumSize _ hq hqn
    obtain ⟨first, rest, h1, h2, h3, _⟩ :=
      createOrderedQuorums_ok sortSlice hs numNodes quorumSize hq hqn
    have hhead := head?_selections (loopValues 1 numNodes) quorumSize.toNat
      (by rw [length_loopValues]; omega)
    rw [take_loopValues numNodes quorumSize (by omega) hqn, h2] at hhead
    have hfirst : first = loopValues 1 quorumSize := by simpa using hhead
    subst hfirst
    refine ⟨_, h1, rfl, ?_⟩
    intro t ht
    obtain ⟨tl, htl⟩ := List.head?_eq_some_iff.1 h2
    have hlex := pairwise_lex_selections _ (sorted_loopValues 1 numNodes) quorumSize.toNat
    rw [htl] at hlex
    have hmem := h3.subset ht
    rw [htl] at hmem
    rcases List.mem_cons.1 hmem with h | h
    · exact Or.inl h
    · exact Or.inr ((List.pairwise_cons.1 hlex).1 t h)

set_option maxRecDepth 100000 in
/-- C18, at the input of the test file and at `numNodes = 5`, `quorumSize = 3`,
with the library insertion sort. -/
theorem first_quorum_is_seed_witness :
    (∃ o, maximizeDistanceOrdering insertionSortFunc
          [[1, 2, 3], [4, 5, 6], [7, 8, 9], [10, 11, 12]] = .ok o
        ∧ o.head? = ([[1, 2, 3], [4, 5, 6], [7, 8, 9], [10, 11, 12]] : List QuorumTuple).head?)
      ∧ ∃ o, createOrderedQuorums insertionSortFunc 5 3 = .ok o
          ∧ o.head? = some (loopValues 1 3)
          ∧ ∀ t ∈ o, t = loopValues 1 3 ∨ List.Lex (fun a b => a < b) (loopValues 1 3) t :=
  ⟨(first_quorum_is_seed insertionSortFunc insertionSortFunc_spec).2.1
      [[1, 2, 3], [4, 5, 6], [7, 8, 9], [10, 11, 12]] (by decide) (by decide),
    (first_quorum_is_seed insertionSortFunc insertionSortFunc_spec).2.2 5 3
      (by decide) (by decide) (by decide)⟩

/-- C19: on an input `first :: rest` of equal-length tuples the loop of
`maximizeDistanceOrdering` runs exactly `rest.length` iterations: that much
fuel returns the result of the function, any less is used up with the loop
still running; and every iteration selects an element of the pool and leaves
a pool shorter by one. -/
theorem loop_iterations (sortSlice : SortSlice) (hs : SortSliceSpec sortSlice)
    (first : QuorumTuple) (rest : List QuorumTuple)
    (hlen : ∀ t ∈ rest, t.length = first.length) :
    (∃ o, maximizeLoop sortSlice rest.length [first] rest = .ok o
        ∧ maximizeDistanceOrdering sortSlice (first :: rest) = .ok o
        ∧ o.length = rest.length + 1)
    ∧ (∀ fuel, fuel < rest.length →
        maximizeLoop sortSlice fuel [first] rest = .error .outOfFuel)
    ∧ (∀ (pre : List QuorumTuple) (last : QuorumTuple) (pool : List QuorumTuple),
        pool ≠ [] → (∀ t ∈ pool, t.length = last.length) →
        ∃ next pool', maximizeStep sortSlice (pre ++ [last]) pool
            = .ok (pre ++ [last] ++ [next], pool')
          ∧ next ∈ pool ∧ pool'.length + 1 = pool.length) := by
  refine ⟨?_, ?_, ?_⟩
  · obtain ⟨o, h1, h2, _⟩ := maximizeLoop_ok sortSlice hs rest.length rest [] first
      (le_refl _) hlen
    refine ⟨_, h1, ?_, ?_⟩
    · exact maximizeLoop_fuel_succ sortSlice _ _ _ _ h1
    · simp [h2.length_eq]
  · intro fuel hfuel
    exact maximizeLoop_outOfFuel sortSlice hs fuel rest [] first hfuel hlen
  · intro pre last pool hne hl
    obtain ⟨next, pool', h1, h2, h3, _, _⟩ := maximizeStep_ok sortSlice hs pre last pool hne hl
    refine ⟨next, pool', h1, h2, ?_⟩
    have := h3.length_eq
    simpa using this.symm

set_option maxRecDepth 100000 in
/-- C19, at the input of the test file with the library insertion sort: three
iterations. -/
theorem loop_iterations_witness :
    (∃ o, maximizeLoop insertionSortFunc 3 [[1, 2, 3]] [[4, 5, 6], [7, 8, 9], [10, 11, 12]]
          = .ok o
        ∧ maximizeDistanceOrdering insertionSortFunc
            [[1, 2, 3], [4, 5, 6], [7, 8, 9], [10, 11, 12]] = .ok o
        ∧ o.length = 3 + 1)
      ∧ maximizeLoop insertionSortFunc 2 [[1, 2, 3]] [[4, 5, 6], [7, 8, 9], [10, 11, 12]]
          = .error .outOfFuel :=
  ⟨(loop_iterations insertionSortFunc insertionSortFunc_spec [1, 2, 3]
      [[4, 5, 6], [7, 8, 9], [10, 11, 12]] (by decide)).1,
    (loop_iterations insertionSortFunc insertionSortFunc_spec [1, 2, 3]
      [[4, 5, 6], [7, 8, 9], [10, 11, 12]] (by decide)).2.1 2 (by decide)⟩

/-- C20: for `quorumSize ≤ numNodes < 2 * quorumSize` any two quorums of
`createOrderedQuorums(numNodes, quorumSize)` share an identifier, so the list of
no-repeat candidates is empty for every last quorum and every pool taken from
the sequence; consecutive quorums share an identifier, and each quorum is at
least as far from its predecessor as every later quorum. -/
theorem majority_quorums_overlap (sortSlice : SortSlice) (hs : SortSliceSpec sortSlice)
    (numNodes quorumSize : Int) (hn : 1 ≤ numNodes) (hqn : quorumSize ≤ numNodes)
    (hmaj : numNodes < 2 * quorumSize) :
    ∃ o, createOrderedQuorums sortSlice numNodes quorumSize = .ok o
      ∧ (∀ a ∈ o, ∀ b ∈ o, ∃ x, x ∈ a ∧ x ∈ b)
      ∧ (∀ last ∈ o, ∀ pool : List QuorumTuple, (∀ t ∈ pool, t ∈ o) →
          pool.filter (fun t => (intersect last t).length == 0) = [])
      ∧ (∀ (i : Nat) (a b : QuorumTuple), o[i]? = some a → o[i + 1]? = some b →
          (∃ x, x ∈ a ∧ x ∈ b)
            ∧ ∃ d, distance a b = .ok d
              ∧ ∀ j c, i < j → o[j]? = some c → ∃ dc, distance a c = .ok dc ∧ dc ≤ d) := by
  have hq : 1 ≤ quorumSize := by omega
  obtain ⟨first, rest, h1, _, h3, h4⟩ :=
    createOrderedQuorums_ok sortSlice hs numNodes quorumSize hq hqn
  have hnd : ∀ a ∈ first :: rest, ∀ b ∈ first :: rest, ¬ List.Disjoint a b :=
    fun a ha b hb => selections_not_disjoint numNodes quorumSize hq hmaj a b
      (h3.subset ha) (h3.subset hb)
  have hcommon : ∀ a ∈ first :: rest, ∀ b ∈ first :: rest, ∃ x, x ∈ a ∧ x ∈ b := by
    intro a ha b hb
    by_contra hc
    exact hnd a ha b hb (fun x hxa hxb => hc ⟨x, hxa, hxb⟩)
  have hlenk : ∀ a ∈ first :: rest, (a.length : Int) = quorumSize :=
    fun a ha => ((mem_combinations 1 numNodes quorumSize (by omega) a).1 (h3.subset ha)).1
  refine ⟨_, h1, hcommon, ?_, ?_⟩
  · intro last hlast pool hpool
    rw [List.filter_eq_nil_iff]
    intro t ht hd
    exact hnd last hlast t (hpool t ht) ((intersect_length_eq_zero_iff last t).1 hd)
  · intro i a b ha hb
    have hao := List.mem_iff_getElem?.2 ⟨i, ha⟩
    have hbo := List.mem_iff_getElem?.2 ⟨i + 1, hb⟩
    refine ⟨hcommon a hao b hbo, _, distance_ok a b ?_, ?_⟩
    · have := hlenk a hao
      have := hlenk b hbo
      omega
    · intro j c hij hc
      have hco := List.mem_iff_getElem?.2 ⟨j, hc⟩
      refine ⟨_, distance_ok a c ?_, ?_⟩
      · have := hlenk a hao
        have := hlenk c hco
        omega
      · refine (selectedInTurn_getElem rest first i a b h4 ha hb).2.2 ?_ c
          ((mem_drop_iff _ _ _).2 ⟨j, hij, hc⟩)
        rintro ⟨r, hr, hd⟩
        exact hnd a hao r (List.mem_of_mem_drop hr) hd

/-- C20, at `numNodes = 5`, `quorumSize = 3`, with the library insertion sort. -/
theorem majority_quorums_overlap_witness :
    ∃ o, createOrderedQuorums insertionSortFunc 5 3 = .ok o
      ∧ (∀ a ∈ o, ∀ b ∈ o, ∃ x, x ∈ a ∧ x ∈ b)
      ∧ (∀ last ∈ o, ∀ pool : List QuorumTuple, (∀ t ∈ pool, t ∈ o) →
          pool.filter (fun t => (intersect last t).length == 0) = [])
      ∧ (∀ (i : Nat) (a b : QuorumTuple), o[i]? = some a → o[i + 1]? = some b →
          (∃ x, x ∈ a ∧ x ∈ b)
            ∧ ∃ d, distance a b = .ok d
              ∧ ∀ j c, i < j → o[j]? = some c → ∃ dc, distance a c = .ok dc ∧ dc ≤ d) :=
  majority_quorums_overlap insertionSortFunc insertionSortFunc_spec 5 3 (by decide)
    (by decide) (by decide)

/-- C16: `distance` fails exactly on tuples of different lengths, with the
dimension failure; for `1 ≤ quorumSize ≤ numNodes` all enumerated tuples have
length `quorumSize`, `distance` returns on every pair of them, every iteration
from a last tuple and a non-empty pool of enumerated tuples completes, and
`createOrderedQuorums(numNodes, quorumSize)` returns a rearrangement of the
enumeration. -/
theorem dimension_mismatch_unreachable (sortSlice : SortSlice)
    (hs : SortSliceSpec sortSlice) (numNodes quorumSize : Int) (hn : 1 ≤ numNodes)
    (hq : 1 ≤ quorumSize) (hqn : quorumSize ≤ numNodes) :
    (∀ a b : QuorumTuple,
        (distance a b = .error .dimensionMismatch ↔ a.length ≠ b.length)
          ∧ ((∃ d, distance a b = .ok d) ↔ a.length = b.length))
    ∧ ∃ cs o, combinations 1 numNodes quorumSize = .ok cs
        ∧ (∀ a ∈ cs, ∀ b ∈ cs, (a.length : Int) = quorumSize ∧ (b.length : Int) = quorumSize
            ∧ ∃ d, distance a b = .ok d)
        ∧ (∀ (pre : List QuorumTuple) (last : QuorumTuple) (pool : List QuorumTuple),
            last ∈ cs → (∀ t ∈ pool, t ∈ cs) → pool ≠ [] →
            ∃ r, maximizeStep sortSlice (pre ++ [last]) pool = .ok r)
        ∧ createOrderedQuorums sortSlice numNodes quorumSize = .ok o ∧ o.Perm cs := by
  have _ := hn
  constructor
  · intro a b
    unfold distance
    by_cases h : a.length = b.length
    · simp [h]
    · simp [h]
  · obtain ⟨first, rest, h1, _, h3, _⟩ :=
      createOrderedQuorums_ok sortSlice hs numNodes quorumSize hq hqn
    have hlenk : ∀ a ∈ selections quorumSize.toNat (loopValues 1 numNodes),
        (a.length : Int) = quorumSize :=
      fun a ha => ((mem_combinations 1 numNodes quorumSize (by omega) a).1 ha).1
    refine ⟨_, _, combinations_ok 1 numNodes quorumSize (by omega), ?_, ?_, h1, h3⟩
    · intro a ha b hb
      refine ⟨hlenk a ha, hlenk b hb, _, distance_ok a b ?_⟩
      have := hlenk a ha
      have := hlenk b hb
      omega
    · intro pre last pool hlast hpool hne
      obtain ⟨next, pool', hstep, _⟩ := maximizeStep_ok sortSlice hs pre last pool hne
        (fun t ht => by
          have := hlenk t (hpool t ht)
          have := hlenk last hlast
          omega)
      exact ⟨_, hstep⟩

/-- C16, at `numNodes = 5`, `quorumSize = 3`, with the library insertion sort. -/
theorem dimension_mismatch_unreachable_witness :
    (∀ a b : QuorumTuple,
        (distance a b = .error .dimensionMismatch ↔ a.length ≠ b.length)
          ∧ ((∃ d, distance a b = .ok d) ↔ a.length = b.length))
    ∧ ∃ cs o, combinations 1 5 3 = .ok cs
        ∧ (∀ a ∈ cs, ∀ b ∈ cs, (a.length : Int) = 3 ∧ (b.length : Int) = 3
            ∧ ∃ d, distance a b = .ok d)
        ∧ (∀ (pre : List QuorumTuple) (last : QuorumTuple) (pool : List QuorumTuple),
            last ∈ cs → (∀ t ∈ pool, t ∈ cs) → pool ≠ [] →
            ∃ r, maximizeStep insertionSortFunc (pre ++ [last]) pool = .ok r)
        ∧ createOrderedQuorums insertionSortFunc 5 3 = .ok o ∧ o.Perm cs :=
  dimension_mismatch_unreachable insertionSortFunc insertionSortFunc_spec 5 3 (by decide)
    (by decide) (by decide)

/-! ## Minimality of the critical length and rejected parameters -/

/-- C14: for `1 ≤ quorumSize ≤ numNodes` all nodes of `1..numNodes` have one
`CriticalLen` `L`; for every `c < L` some slot is among the first `c` entries
of the ordering of fewer than `quorumSize` nodes, and at `c = L` every slot is
among the first `L` entries of exactly `quorumSize` nodes. -/
theorem criticalLen_minimal (sortSlice : SortSlice) (hs : SortSliceSpec sortSlice)
    (numNodes quorumSize : Int) (hn : 1 ≤ numNodes) (hq : 1 ≤ quorumSize)
    (hqn : quorumSize ≤ numNodes) :
    ∃ L : Nat,
      (∀ p ∈ nodeIds numNodes, ∃ m, NewMetronome sortSlice p numNodes quorumSize = .ok m
          ∧ m.CriticalLen = L)
      ∧ (∀ c : Nat, 1 ≤ c → c < L →
          ∃ s : Nat, s < numNodes.toNat.choose quorumSize.toNat
            ∧ (((nodeIds numNodes).countP (fun p =>
                match NewMetronome sortSlice p numNodes quorumSize with
                | .ok m => decide (s ∈ m.MyOrdering.take c)
                | .error _ => false) : Nat) : Int) < quorumSize)
      ∧ (∀ s : Nat, s < numNodes.toNat.choose quorumSize.toNat →
          (((nodeIds numNodes).countP (fun p =>
              match NewMetronome sortSlice p numNodes quorumSize with
              | .ok m => decide (s ∈ m.MyOrdering.take L)
              | .error _ => false) : Nat) : Int) = quorumSize) := by
  have _ := hn
  obtain ⟨o, _, hperm, hnew⟩ := NewMetronome_ok sortSlice hs numNodes quorumSize hq hqn
  have hlen : o.length = numNodes.toNat.choose quorumSize.toNat := by
    rw [hperm.length_eq, length_selections, length_loopValues]
    congr 1
    omega
  have hpos : 0 < numNodes.toNat.choose quorumSize.toNat := Nat.choose_pos (by omega)
  have hL : ∀ p ∈ nodeIds numNodes,
      (memberSlots p o).length = (numNodes - 1).toNat.choose (quorumSize - 1).toNat := by
    intro p hp
    rw [length_memberSlots, hperm.countP_eq]
    have hk : quorumSize.toNat = (quorumSize - 1).toNat + 1 := by omega
    rw [hk, countP_selections_of_mem p _ _ (nodup_loopValues 1 numNodes) hp,
      length_loopValues]
    congr 1
    omega
  refine ⟨(numNodes - 1).toNat.choose (quorumSize - 1).toNat, ?_, ?_, ?_⟩
  · intro p hp
    exact ⟨_, hnew p, hL p hp⟩
  · intro c _ hc
    refine ⟨o.length - 1, by omega, ?_⟩
    rw [countP_take_congr sortSlice numNodes quorumSize o hnew]
    have hzero : (nodeIds numNodes).countP (fun p =>
        decide (o.length - 1 ∈ (memberSlots p o ++ otherSlots p o).take c)) = 0 := by
      rw [List.countP_eq_zero]
      intro p hp
      simp only [decide_eq_true_eq]
      exact last_slot_not_mem_take p o c (by rw [hL p hp]; exact hc)
    rw [hzero]
    simp only [Nat.cast_zero]
    omega
  · intro s hs'
    rw [countP_take_congr sortSlice numNodes quorumSize o hnew]
    have hso : s < o.length := by omega
    have hmem := (mem_combinations 1 numNodes quorumSize (by omega) o[s]).1
      (hperm.subset (List.getElem_mem hso))
    have hcongr : (nodeIds numNodes).countP (fun p =>
          decide (s ∈ (memberSlots p o ++ otherSlots p o).take
            ((numNodes - 1).toNat.choose (quorumSize - 1).toNat)))
        = (nodeIds numNodes).countP (fun p => decide (p ∈ o[s])) := by
      apply List.countP_congr
      intro p hp
      simp only [← hL p hp, List.take_left, decide_eq_true_eq, mem_memberSlots]
      constructor
      · rintro ⟨t, ht, hpt⟩
        rw [List.getElem?_eq_getElem hso] at ht
        cases ht
        exact hpt
      · intro hpt
        exact ⟨o[s], List.getElem?_eq_getElem hso, hpt⟩
    rw [hcongr]
    unfold nodeIds
    rw [countP_mem_eq_length _ _ (nodup_loopValues 1 numNodes)
      (hmem.2.1.imp (fun h => ne_of_lt h))
      (fun x hx => (mem_loopValues 1 numNodes x).2 (hmem.2.2 x hx))]
    exact hmem.1

/-- C14, at `numNodes = 5`, `quorumSize = 3`, with the library insertion sort. -/
theorem criticalLen_minimal_witness :
    ∃ L : Nat,
      (∀ p ∈ nodeIds 5, ∃ m, NewMetronome insertionSortFunc p 5 3 = .ok m ∧ m.CriticalLen = L)
      ∧ (∀ c : Nat, 1 ≤ c → c < L →
          ∃ s : Nat, s < (5 : Int).toNat.choose (3 : Int).toNat
            ∧ (((nodeIds 5).countP (fun p =>
                match NewMetronome insertionSortFunc p 5 3 with
                | .ok m => decide (s ∈ m.MyOrdering.take c)
                | .error _ => false) : Nat) : Int) < 3)
      ∧ (∀ s : Nat, s < (5 : Int).toNat.choose (3 : Int).toNat →
          (((nodeIds 5).countP (fun p =>
              match NewMetronome insertionSortFunc p 5 3 with
              | .ok m => decide (s ∈ m.MyOrdering.take L)
              | .error _ => false) : Nat) : Int) = 3) :=
  criticalLen_minimal insertionSortFunc insertionSortFunc_spec 5 3 (by decide) (by decide)
    (by decide)

/-- C13 fails as stated: with `quorumSize = 0` the enumeration returns one empty
tuple and `NewMetronome` returns a Metronome, and with `quorumSize = 3` and
`numNodes = 2` the enumeration returns the empty list instead of failing. -/
theorem invalid_parameters_not_rejected :
    combinations 1 3 0 = .ok [[]]
      ∧ NewMetronome insertionSortFunc 1 3 0
          = .ok { Pid := 1, MyOrdering := [0], AllOrderings := [], CriticalLen := 0 }
      ∧ combinations 1 2 3 = .ok [] := by
  decide

/-- C13, amended: `NewMetronome` fails when `quorumSize < 0`, where the
enumeration fails at the allocation of its buffer, and when
`1 ≤ quorumSize` and `numNodes < quorumSize`, where the enumeration returns
the empty list and the sequencer fails at the index of its first element;
with `quorumSize = 0` the enumeration returns one empty tuple and
`NewMetronome` returns a Metronome. -/
theorem invalid_parameters (sortSlice : SortSlice) (pid : NodeId) (numNodes quorumSize : Int) :
    (quorumSize < 0 →
        combinations 1 numNodes quorumSize = .error .makeSliceLen
          ∧ NewMetronome sortSlice pid numNodes quorumSize = .error .makeSliceLen)
    ∧ (1 ≤ quorumSize → numNodes < quorumSize →
        combinations 1 numNodes quorumSize = .ok []
          ∧ NewMetronome sortSlice pid numNodes quorumSize = .error .indexOutOfRange)
    ∧ (quorumSize = 0 →
        combinations 1 numNodes quorumSize = .ok [[]]
          ∧ NewMetronome sortSlice pid numNodes quorumSize
            = .ok { Pid := pid, MyOrdering := [0], AllOrderings := [], CriticalLen := 0 }) := by
  refine ⟨?_, ?_, ?_⟩
  · intro h
    have hc : combinations 1 numNodes quorumSize = .error .makeSliceLen := by
      unfold combinations
      rw [if_pos h]
    refine ⟨hc, ?_⟩
    simp only [NewMetronome, createOrderedQuorums, hc]
  · intro h1 h2
    have hc : combinations 1 numNodes quorumSize = .ok [] := by
      rw [combinations_ok 1 numNodes quorumSize (by omega),
        selections_eq_nil _ _ (by rw [length_loopValues]; omega)]
    refine ⟨hc, ?_⟩
    simp only [NewMetronome, createOrderedQuorums, hc, maximizeDistanceOrdering]
  · intro h
    subst h
    have hc : combinations 1 numNodes 0 = .ok [[]] := by
      rw [combinations_ok 1 numNodes 0 (le_refl _)]
      simp [selections]
    refine ⟨hc, ?_⟩
    simp only [NewMetronome, createOrderedQuorums, hc, maximizeDistanceOrdering,
      List.length_singleton, maximizeLoop, getMyOrderingAndCriticalLen_eq]
    rfl

/-- C13 amended, at `quorumSize = -1`, at `quorumSize = 3 > numNodes = 2`, and
at `quorumSize = 0`, with the library insertion sort. -/
theorem invalid_parameters_witness :
    (combinations 1 3 (-1) = .error .makeSliceLen
        ∧ NewMetronome insertionSortFunc 1 3 (-1) = .error .makeSliceLen)
    ∧ (combinations 1 2 3 = .ok []
        ∧ NewMetronome insertionSortFunc 1 2 3 = .error .indexOutOfRange)
    ∧ (combinations 1 3 0 = .ok [[]]
        ∧ NewMetronome insertionSortFunc 1 3 0
          = .ok { Pid := 1, MyOrdering := [0], AllOrderings := [], CriticalLen := 0 }) :=
  ⟨(invalid_parameters insertionSortFunc 1 3 (-1)).1 (by decide),
    (invalid_parameters insertionSortFunc 1 2 3).2.1 (by decide) (by decide),
    (invalid_parameters insertionSortFunc 1 3 0).2.2 rfl⟩

/-! ## The tie-break between candidates of equal distance -/

set_option maxRecDepth 100000 in
/-- C15 fails as stated: in `createOrderedQuorums(6, 3)` with the library sort
the first three selections lead to the last quorum `{3,5,6}` and a pool of 16
quorums, all sharing an identifier with it; the sort of the pool puts `{2,3,4}`
first and the step selects it, although `{1,2,5}`, the first quorum of the
pool, has the same, maximal distance 3. -/
theorem tie_break_not_stable :
    combinations 1 6 3
      = .ok [[1, 2, 3], [1, 2, 4], [1, 2, 5], [1, 2, 6], [1, 3, 4], [1, 3, 5], [1, 3, 6],
          [1, 4, 5], [1, 4, 6], [1, 5, 6], [2, 3, 4], [2, 3, 5], [2, 3, 6], [2, 4, 5],
          [2, 4, 6], [2, 5, 6], [3, 4, 5], [3, 4, 6], [3, 5, 6], [4, 5, 6]]
    ∧ maximizeStep librarySortSlice [[1, 2, 3]]
        [[1, 2, 4], [1, 2, 5], [1, 2, 6], [1, 3, 4], [1, 3, 5], [1, 3, 6],
          [1, 4, 5], [1, 4, 6], [1, 5, 6], [2, 3, 4], [2, 3, 5], [2, 3, 6], [2, 4, 5],
          [2, 4, 6], [2, 5, 6], [3, 4, 5], [3, 4, 6], [3, 5, 6], [4, 5, 6]]
      = .ok ([[1, 2, 3], [4, 5, 6]],
          [[1, 2, 4], [1, 2, 5], [1, 2, 6], [1, 3, 4], [1, 3, 5], [1, 3, 6],
            [1, 4, 5], [1, 4, 6], [1, 5, 6], [2, 3, 4], [2, 3, 5], [2, 3, 6], [2, 4, 5],
            [2, 4, 6], [2, 5, 6], [3, 4, 5], [3, 4, 6], [3, 5, 6]])
    ∧ sliceSort (fartherFrom [4, 5, 6])
        [[1, 2, 4], [1, 2, 5], [1, 2, 6], [1, 3, 4], [1, 3, 5], [1, 3, 6],
          [1, 4, 5], [1, 4, 6], [1, 5, 6], [2, 3, 4], [2, 3, 5], [2, 3, 6], [2, 4, 5],
          [2, 4, 6], [2, 5, 6], [3, 4, 5], [3, 4, 6], [3, 5, 6]]
      = some [[1, 2, 4], [1, 2, 5], [1, 2, 6], [1, 3, 4], [1, 3, 5], [1, 3, 6],
          [1, 4, 5], [1, 4, 6], [1, 5, 6], [2, 3, 4], [2, 3, 5], [2, 3, 6], [2, 4, 5],
          [2, 4, 6], [2, 5, 6], [3, 4, 5], [3, 4, 6], [3, 5, 6]]
    ∧ maximizeStep librarySortSlice [[1, 2, 3], [4, 5, 6]]
        [[1, 2, 4], [1, 2, 5], [1, 2, 6], [1, 3, 4], [1, 3, 5], [1, 3, 6],
          [1, 4, 5], [1, 4, 6], [1, 5, 6], [2, 3, 4], [2, 3, 5], [2, 3, 6], [2, 4, 5],
          [2, 4, 6], [2, 5, 6], [3, 4, 5], [3, 4, 6], [3, 5, 6]]
      = .ok ([[1, 2, 3], [4, 5, 6], [1, 2, 4]],
          [[1, 2, 5], [1, 2, 6], [1, 3, 4], [1, 3, 5], [1, 3, 6],
            [1, 4, 5], [1, 4, 6], [1, 5, 6], [2, 3, 4], [2, 3, 5], [2, 3, 6], [2, 4, 5],
            [2, 4, 6], [2, 5, 6], [3, 4, 5], [3, 4, 6], [3, 5, 6]])
    ∧ maximizeStep librarySortSlice [[1, 2, 3], [4, 5, 6], [1, 2, 4]]
        [[1, 2, 5], [1, 2, 6], [1, 3, 4], [1, 3, 5], [1, 3, 6],
          [1, 4, 5], [1, 4, 6], [1, 5, 6], [2, 3, 4], [2, 3, 5], [2, 3, 6], [2, 4, 5],
          [2, 4, 6], [2, 5, 6], [3, 4, 5], [3, 4, 6], [3, 5, 6]]
      = .ok ([[1, 2, 3], [4, 5, 6], [1, 2, 4], [3, 5, 6]],
          [[1, 2, 5], [1, 2, 6], [1, 3, 4], [1, 3, 5], [1, 3, 6],
            [1, 4, 5], [1, 4, 6], [1, 5, 6], [2, 3, 4], [2, 3, 5], [2, 3, 6], [2, 4, 5],
            [2, 4, 6], [2, 5, 6], [3, 4, 5], [3, 4, 6]])
    ∧ sliceSort (fartherFrom [3, 5, 6])
        [[1, 2, 5], [1, 2, 6], [1, 3, 4], [1, 3, 5], [1, 3, 6],
          [1, 4, 5], [1, 4, 6], [1, 5, 6], [2, 3, 4], [2, 3, 5], [2, 3, 6], [2, 4, 5],
          [2, 4, 6], [2, 5, 6], [3, 4, 5], [3, 4, 6]]
      = some [[2, 3, 4], [1, 2, 6], [1, 3, 4], [1, 3, 5], [1, 2, 5], [1, 3, 6],
          [1, 4, 6], [1, 5, 6], [1, 4, 5], [2, 3, 5], [2, 3, 6], [2, 4, 5],
          [2, 4, 6], [2, 5, 6], [3, 4, 5], [3, 4, 6]]
    ∧ maximizeStep librarySortSlice [[1, 2, 3], [4, 5, 6], [1, 2, 4], [3, 5, 6]]
        [[1, 2, 5], [1, 2, 6], [1, 3, 4], [1, 3, 5], [1, 3, 6],
          [1, 4, 5], [1, 4, 6], [1, 5, 6], [2, 3, 4], [2, 3, 5], [2, 3, 6], [2, 4, 5],
          [2, 4, 6], [2, 5, 6], [3, 4, 5], [3, 4, 6]]
      = .ok ([[1, 2, 3], [4, 5, 6], [1, 2, 4], [3, 5, 6], [2, 3, 4]],
          [[1, 2, 6], [1, 3, 4], [1, 3, 5], [1, 2, 5], [1, 3, 6],
            [1, 4, 6], [1, 5, 6], [1, 4, 5], [2, 3, 5], [2, 3, 6], [2, 4, 5],
            [2, 4, 6], [2, 5, 6], [3, 4, 5], [3, 4, 6]])
    ∧ stepCandidates [3, 5, 6]
        [[1, 2, 5], [1, 2, 6], [1, 3, 4], [1, 3, 5], [1, 3, 6],
          [1, 4, 5], [1, 4, 6], [1, 5, 6], [2, 3, 4], [2, 3, 5], [2, 3, 6], [2, 4, 5],
          [2, 4, 6], [2, 5, 6], [3, 4, 5], [3, 4, 6]]
      = [[1, 2, 5], [1, 2, 6], [1, 3, 4], [1, 3, 5], [1, 3, 6],
          [1, 4, 5], [1, 4, 6], [1, 5, 6], [2, 3, 4], [2, 3, 5], [2, 3, 6], [2, 4, 5],
          [2, 4, 6], [2, 5, 6], [3, 4, 5], [3, 4, 6]]
    ∧ distanceValue [3, 5, 6] [1, 2, 5] = 3 ∧ distanceValue [3, 5, 6] [2, 3, 4] = 3
    ∧ ¬ FirstMaximal (distanceValue [3, 5, 6])
        (stepCandidates [3, 5, 6]
          [[1, 2, 5], [1, 2, 6], [1, 3, 4], [1, 3, 5], [1, 3, 6],
            [1, 4, 5], [1, 4, 6], [1, 5, 6], [2, 3, 4], [2, 3, 5], [2, 3, 6], [2, 4, 5],
            [2, 4, 6], [2, 5, 6], [3, 4, 5], [3, 4, 6]])
        [2, 3, 4] := by
  refine ⟨by decide, by decide, by decide, by decide, by decide, by decide, by decide,
    by decide, by decide, by decide, ?_⟩
  intro h
  have h1 := firstMaximal_of_FirstMaximal _ _ _ h
  revert h1
  decide

/-- C15, amended: at a step of `maximizeDistanceOrdering` with at most 12
candidates (the no-repeat candidates if any exist, otherwise the whole
remaining pool), which `sort.Slice` orders by insertion sort, the quorum
selected is, among the candidates that attain the maximum distance from the
last appended quorum, the one that comes first in the pool's order before
that step's sort. -/
theorem tie_break_first_in_pool (sortSlice : SortSlice)
    (hshort : ∀ less xs, xs.length ≤ 12 → sortSlice less xs = insertionSortFunc less xs)
    (pre : List QuorumTuple) (last : QuorumTuple) (pool : List QuorumTuple) (hne : pool ≠ [])
    (hlen : ∀ t ∈ pool, t.length = last.length)
    (hc : (stepCandidates last pool).length ≤ 12) :
    ∃ next pool', maximizeStep sortSlice (pre ++ [last]) pool
        = .ok (pre ++ [last] ++ [next], pool')
      ∧ (∃ l1 l2, stepCandidates last pool = l1 ++ next :: l2
          ∧ (∀ r ∈ l1, distanceValue last r < distanceValue last next)
          ∧ (∀ r ∈ l2, distanceValue last r ≤ distanceValue last next))
      ∧ (insertionSortFunc (fartherFrom last) (stepCandidates last pool)).head? = some next := by
  obtain ⟨next, pool', h1, h2⟩ := maximizeStep_first_maximal sortSlice pre last pool hne hlen
    (hshort _ _ hc)
  refine ⟨next, pool', h1, h2, ?_⟩
  have hcne : stepCandidates last pool ≠ [] := by
    obtain ⟨l1, l2, h, _⟩ := h2
    rw [h]
    simp
  obtain ⟨m, hm, hfm⟩ := head?_insertionSortFunc (distanceValue last) _ hcne
  have e1 := firstMaximal_of_FirstMaximal _ _ _ hfm
  have e2 := firstMaximal_of_FirstMaximal _ _ _ h2
  rw [e1] at e2
  cases e2
  exact hm

set_option maxRecDepth 100000 in
/-- C15 amended, with the modelled library sort, after `{1,2,3}` and the pool
`{3,4,5}`, `{4,5,6}`, `{4,5,7}`: the two no-repeat candidates are equally far
and the earlier one is selected. -/
theorem tie_break_first_in_pool_witness :
    maximizeStep librarySortSlice [[1, 2, 3]] [[3, 4, 5], [4, 5, 6], [4, 5, 7]]
        = .ok ([[1, 2, 3], [4, 5, 6]], [[3, 4, 5], [4, 5, 7]])
    ∧ distanceValue [1, 2, 3] [4, 5, 6] = distanceValue [1, 2, 3] [4, 5, 7]
    ∧ ∃ next pool', maximizeStep librarySortSlice ([] ++ [[1, 2, 3]])
          [[3, 4, 5], [4, 5, 6], [4, 5, 7]]
        = .ok ([] ++ [[1, 2, 3]] ++ [next], pool')
      ∧ (∃ l1 l2, stepCandidates [1, 2, 3] [[3, 4, 5], [4, 5, 6], [4, 5, 7]] = l1 ++ next :: l2
          ∧ (∀ r ∈ l1, distanceValue [1, 2, 3] r < distanceValue [1, 2, 3] next)
          ∧ (∀ r ∈ l2, distanceValue [1, 2, 3] r ≤ distanceValue [1, 2, 3] next))
      ∧ (insertionSortFunc (fartherFrom [1, 2, 3])
          (stepCandidates [1, 2, 3] [[3, 4, 5], [4, 5, 6], [4, 5, 7]])).head? = some next :=
  ⟨by decide, by decide,
    tie_break_first_in_pool librarySortSlice librarySortSlice_short [] [1, 2, 3]
      [[3, 4, 5], [4, 5, 6], [4, 5, 7]] (by decide) (by decide) (by decide)⟩

end Raft
